import Mathlib

/-!
# Shasta: mode 3 assembly graph, file name helpers and alignment pages

A shallow embedding of the inline functions of `src/mode3.hpp`
(`shasta::mode3::AssemblyGraph`), of the path helpers of `src/filesystem.cpp`
and of the alignment filters of `src/AssemblerHttpServer-Alignments.cpp`,
together with theorems about them.

Conventions of the embedding.

* `uint32_t` / `uint64_t` values are natural numbers; every arithmetic
  operation the source performs on them is reduced modulo `2^32` / `2^64`
  explicitly.  Predicates named `InRange` say that the stored fields fit
  their C++ types.
* `int64_t` values are integers; conversions from unsigned values wrap in
  two's complement.  A signed subtraction whose exact result leaves the range
  is undefined in C++; the embedding makes it wrap, and the theorems about
  computed values carry hypotheses under which no such subtraction occurs.
* `double` values are modelled by the type `Double` below: a finite value is
  carried as the rational number it denotes, and the two infinities and NaN
  are kept apart because the source divides by sums that can be zero.  Every
  conversion and every arithmetic operation rounds its exact result to the
  nearest binary64 number, ties to even (`Double.ofRat`); the two zeros are
  not told apart.
* `SHASTA_ASSERT` either lets execution continue or stops it.
* A `std::string` is the list of its characters; a function that can throw
  returns an `Except` value.
-/

namespace shasta

/-! ## C++ scalar arithmetic -/

/-- The number of values of a `uint32_t`. -/
def two32 : Nat := 2 ^ 32

/-- The number of values of a `uint64_t`. -/
def two64 : Nat := 2 ^ 64

/-- Addition of two `uint64_t` values. -/
def add64 (a b : Nat) : Nat := (a + b) % two64

/-- Subtraction of two `uint64_t` values. -/
def sub64 (a b : Nat) : Nat := (((a : Int) - (b : Int)) % (two64 : Int)).toNat

/-- Subtraction of two `uint32_t` values (performed in `unsigned int`). -/
def sub32 (a b : Nat) : Nat := (((a : Int) - (b : Int)) % (two32 : Int)).toNat

/-- Reduction of an integer to the range of `int64_t` (two's complement). -/
def wrapInt64 (z : Int) : Int := (z + 2 ^ 63) % 2 ^ 64 - 2 ^ 63

/-- The conversion `int64_t(x)` of an unsigned value `x`. -/
def toInt64 (n : Nat) : Int := wrapInt64 (n : Int)

/-- Subtraction of two `int64_t` values. -/
def subInt64 (a b : Int) : Int := wrapInt64 (a - b)

/-! ## Rounding to binary64 -/

/-- Rounding of a rational number to the nearest integer, a tie going to the even
one. -/
def roundHalfEven (x : ℚ) : ℤ :=
  if x - (⌊x⌋ : ℚ) < 1 / 2 then ⌊x⌋
  else if 1 / 2 < x - (⌊x⌋ : ℚ) then ⌊x⌋ + 1
  else if ⌊x⌋ % 2 = 0 then ⌊x⌋ else ⌊x⌋ + 1

/-- The exponent of the unit in the last place of the binary64 numbers of the
magnitude `a`: 52 below the binary exponent of `a`, and never below the exponent
of the subnormal numbers. -/
def ulpExponent (a : ℚ) : ℤ :=
  max (Int.log 2 a) (-1022) - 52

/-- Rounding of a rational number to the nearest number with a 53 bit significand
and an exponent not below the subnormal one, ties to even; the exponent is not
bounded above. -/
def roundToBinary64 (q : ℚ) : ℚ :=
  (roundHalfEven (q / (2 : ℚ) ^ ulpExponent |q|) : ℚ) * (2 : ℚ) ^ ulpExponent |q|

/-- The rational numbers with a 53 bit significand and an exponent not below the
subnormal one: the finite binary64 numbers, were the exponent not bounded above. -/
def IsBinary64 (x : ℚ) : Prop :=
  ∃ m k : ℤ, |m| ≤ 2 ^ 53 ∧ -1074 ≤ k ∧ x = (m : ℚ) * (2 : ℚ) ^ k

/-! ## The type `double` -/

/-- Values of the C++ type `double`: a finite value, an infinity with its
sign (`true` for the negative one), or NaN. -/
inductive Double where
  | fin (q : ℚ)
  | inf (negative : Bool)
  | nan
  deriving DecidableEq

namespace Double

/-- The double that an exact result rounds to: the nearest binary64 number, ties to
even, and an infinity when the rounded magnitude reaches `2^1024`. -/
def ofRat (q : ℚ) : Double :=
  if (2 : ℚ) ^ 1024 ≤ |roundToBinary64 q| then inf (decide (q < 0))
  else fin (roundToBinary64 q)

/-- The conversion `double(n)` of an unsigned integer. -/
def ofNat (n : Nat) : Double := ofRat (n : ℚ)

/-- The conversion `double(z)` of a signed integer. -/
def ofInt (z : Int) : Double := ofRat (z : ℚ)

/-- Addition of doubles. -/
def add : Double → Double → Double
  | fin a, fin b => ofRat (a + b)
  | fin _, inf n => inf n
  | inf n, fin _ => inf n
  | inf n, inf m => if n = m then inf n else nan
  | _, _ => nan

/-- Division of doubles; a zero divisor is the positive zero. -/
def div : Double → Double → Double
  | fin a, fin b =>
      if b = 0 then (if a = 0 then nan else inf (decide (a < 0))) else ofRat (a / b)
  | fin _, inf _ => fin 0
  | inf n, fin b => inf (xor n (decide (b < 0)))
  | _, _ => nan

/-- The comparison `a < b` of doubles; false when either is NaN. -/
def lt : Double → Double → Bool
  | fin a, fin b => decide (a < b)
  | fin _, inf n => !n
  | inf n, fin _ => n
  | inf n, inf m => n && !m
  | _, _ => false

/-- The comparison `a <= b` of doubles; false when either is NaN. -/
def le : Double → Double → Bool
  | fin a, fin b => decide (a ≤ b)
  | fin _, inf n => !n
  | inf n, fin _ => n
  | inf n, inf m => n || !m
  | _, _ => false

/-- The function `std::max(a, b)`, which is `(a < b) ? b : a`. -/
def max (a b : Double) : Double := if lt a b then b else a

/-- Subtraction of doubles. -/
def sub : Double → Double → Double
  | fin a, fin b => ofRat (a - b)
  | fin _, inf n => inf (!n)
  | inf n, fin _ => inf n
  | inf n, inf m => if n = m then nan else inf n
  | _, _ => nan

/-- A double is NaN. -/
def isNan : Double → Bool
  | nan => true
  | _ => false

end Double

/-! ## Assertions -/

/-- The way a function stops when a `SHASTA_ASSERT` does not hold. -/
inductive Failure where
  | assertionFailed
  deriving DecidableEq

/-- Modelled from the spec: the macro `SHASTA_ASSERT` (its header is not among
the sources).  An internal-consistency violation is fatal and aborts the
computation; otherwise execution continues. -/
def SHASTA_ASSERT (condition : Bool) : Except Failure Unit :=
  if condition then Except.ok () else Except.error Failure.assertionFailed

/-! ## `SegmentPairInformation` -/

/-- The class `AssemblyGraph::SegmentPairInformation`. -/
structure SegmentPairInformation where
  totalCount : Fin 2 → Nat
  commonCount : Nat
  offset : Int
  unexplainedCount : Fin 2 → Nat
  shortCount : Fin 2 → Nat

namespace SegmentPairInformation

/-- The default member initialisers of the class. -/
def defaultConstructed : SegmentPairInformation where
  totalCount := ![0, 0]
  commonCount := 0
  offset := 2 ^ 63 - 1
  unexplainedCount := ![0, 0]
  shortCount := ![0, 0]

/-- Every field holds a value of its C++ type. -/
def InRange (s : SegmentPairInformation) : Prop :=
  (∀ i, s.totalCount i < two64) ∧ s.commonCount < two64 ∧
  (-(2 ^ 63 : Int) ≤ s.offset ∧ s.offset < 2 ^ 63) ∧
  (∀ i, s.unexplainedCount i < two64) ∧ (∀ i, s.shortCount i < two64)

/-- The left side of the comparison asserted by `check()` for side `i`. -/
def checkedSum (s : SegmentPairInformation) (i : Fin 2) : Nat :=
  add64 (add64 s.commonCount (s.unexplainedCount i)) (s.shortCount i)

/-- The member function `check()`: the loop over `i = 0, 1`. -/
def check (s : SegmentPairInformation) : Except Failure Unit :=
  [(0 : Fin 2), 1].forM (fun i => SHASTA_ASSERT (decide (s.checkedSum i = s.totalCount i)))

/-- The divisor of `unexplainedFraction(i)` before its conversion to double. -/
def unexplainedDenominator (s : SegmentPairInformation) (i : Fin 2) : Nat :=
  add64 s.commonCount (s.unexplainedCount i)

/-- The member function `unexplainedFraction(i)`. -/
def unexplainedFraction (s : SegmentPairInformation) (i : Fin 2) : Double :=
  Double.div (Double.ofNat (s.unexplainedCount i)) (Double.ofNat (s.unexplainedDenominator i))

/-- The member function `maximumUnexplainedFraction()`. -/
def maximumUnexplainedFraction (s : SegmentPairInformation) : Double :=
  Double.max (s.unexplainedFraction 0) (s.unexplainedFraction 1)

/-- The divisor of `jaccard()` before its conversion to double. -/
def jaccardDenominator (s : SegmentPairInformation) : Nat :=
  add64 (add64 s.commonCount (s.unexplainedCount 0)) (s.unexplainedCount 1)

/-- The member function `jaccard()`. -/
def jaccard (s : SegmentPairInformation) : Double :=
  Double.div (Double.ofNat s.commonCount) (Double.ofNat s.jaccardDenominator)

/-- The segment pair of the repeat detection scenario. -/
def scenario : SegmentPairInformation where
  totalCount := ![20, 20]
  commonCount := 18
  offset := 0
  unexplainedCount := ![2, 2]
  shortCount := ![0, 0]

/-- A segment pair, with every field in range, for which the 64 bit sum
`commonCount + unexplainedCount[0]` wraps around to 1. -/
def overflowPair : SegmentPairInformation where
  totalCount := ![1, 2 ^ 64 - 1]
  commonCount := 2 ^ 64 - 1
  offset := 0
  unexplainedCount := ![2, 0]
  shortCount := ![0, 0]

/-- A segment pair, with every field in range and one common read, for which the
64 bit sum `commonCount + unexplainedCount[0]` wraps around to 0. -/
def zeroDenominatorPair : SegmentPairInformation where
  totalCount := ![0, 1]
  commonCount := 1
  offset := 0
  unexplainedCount := ![2 ^ 64 - 1, 0]
  shortCount := ![0, 0]

/-- A segment pair with one common read and four unexplained reads on side 0. -/
def fifthsPair : SegmentPairInformation where
  totalCount := ![5, 1]
  commonCount := 1
  offset := 0
  unexplainedCount := ![4, 0]
  shortCount := ![0, 0]

end SegmentPairInformation

/-! ## Pseudopaths, transitions and links -/

/-- Modelled from the spec: the class `OrientedReadId` (its header is not among
the sources), an oriented read identified by its integer value. -/
structure OrientedReadId where
  value : Nat
  deriving DecidableEq

/-- The class `AssemblyGraph::PseudoPathEntry`. -/
structure PseudoPathEntry where
  segmentId : Nat
  position : Nat
  ordinals : Fin 2 → Nat

namespace PseudoPathEntry

/-- Every field holds a value of its C++ type. -/
def InRange (e : PseudoPathEntry) : Prop :=
  e.segmentId < two64 ∧ e.position < two32 ∧ ∀ i, e.ordinals i < two32

end PseudoPathEntry

/-- The class `AssemblyGraph::Transition`, an `array<PseudoPathEntry, 2>`. -/
abbrev Transition := Fin 2 → PseudoPathEntry

/-- The type `AssemblyGraph::Transitions`. -/
abbrev Transitions := List (OrientedReadId × Transition)

/-- Both entries of every transition of the container hold values of their C++ types. -/
def Transitions.InRange (transitions : Transitions) : Prop :=
  ∀ p ∈ transitions, ∀ i, (p.2 i).InRange

/-- The value of the local variable `linkSeparation` computed in the loop body of
`AssemblyGraph::linkSeparation` for one transition. -/
def transitionSeparation (pathLength0 : Nat) (transition : Transition) : Int :=
  let pseudoPathEntry0 := transition 0
  let pseudoPathEntry1 := transition 1
  subInt64
    (subInt64
      (toInt64 (sub32 (pseudoPathEntry1.ordinals 0) (pseudoPathEntry0.ordinals 1)))
      (toInt64 (sub64 (sub64 pathLength0 1) pseudoPathEntry0.position)))
    (toInt64 pseudoPathEntry1.position)

/-- The loop of `AssemblyGraph::linkSeparation`, started with the current value of
`averageLinkSeparation`. -/
def linkSeparationLoop (pathLength0 : Nat) :
    Transitions → Double → Except Failure Double
  | [], averageLinkSeparation => Except.ok averageLinkSeparation
  | p :: rest, averageLinkSeparation =>
      match SHASTA_ASSERT (decide ((p.2 1).ordinals 0 ≥ (p.2 0).ordinals 1)) with
      | Except.error e => Except.error e
      | Except.ok () =>
          linkSeparationLoop pathLength0 rest
            (Double.add averageLinkSeparation (Double.ofInt (transitionSeparation pathLength0 p.2)))

/-- The function `AssemblyGraph::linkSeparation`. -/
def linkSeparation (transitions : Transitions) (pathLength0 : Nat) :
    Except Failure Double :=
  match linkSeparationLoop pathLength0 transitions (Double.fin 0) with
  | Except.error e => Except.error e
  | Except.ok averageLinkSeparation =>
      Except.ok (Double.div averageLinkSeparation (Double.ofNat transitions.length))

/-- The signed integer that the documentation of link separation describes for one
transition, computed without any wrap-around. -/
def exactSeparation (pathLength0 : Nat) (transition : Transition) : Int :=
  (((transition 1).ordinals 0 : Int) - ((transition 0).ordinals 1 : Int))
    - ((pathLength0 : Int) - 1 - ((transition 0).position : Int))
    - ((transition 1).position : Int)

/-- The arithmetic mean of the exact separations of a collection of transitions. -/
def exactMeanSeparation (transitions : Transitions) (pathLength0 : Nat) : ℚ :=
  (((transitions.map (fun p => exactSeparation pathLength0 p.2)).sum : Int) : ℚ) /
    (transitions.length : ℚ)

/-- Two transitions of a link leaving a segment of path length 3; the first exits
at position 5, so that `pathLength0 - 1 - position` wraps around as an unsigned
value. -/
def sampleTransitions : Transitions :=
  [(⟨0⟩, ![⟨7, 5, ![10, 11]⟩, ⟨8, 2, ![20, 21]⟩]),
   (⟨2⟩, ![⟨7, 1, ![3, 4]⟩, ⟨8, 0, ![4, 5]⟩])]

/-- Three transitions of a link leaving a segment of path length 2, each exiting at
the last position 1 and entering one ordinal later; the first enters at position 0
and the other two at position 1, so that the exact separations are 1, 0 and 0. -/
def thirdsTransitions : Transitions :=
  [(⟨0⟩, ![⟨7, 1, ![3, 4]⟩, ⟨8, 0, ![5, 6]⟩]),
   (⟨2⟩, ![⟨7, 1, ![3, 4]⟩, ⟨8, 1, ![5, 6]⟩]),
   (⟨4⟩, ![⟨7, 1, ![3, 4]⟩, ⟨8, 1, ![5, 6]⟩])]

/-- One transition, with every field in range, whose exact separation for
`pathLength0 = 2^54 + 2` is `-(2^54 + 1)`, an integer that is not a double. -/
def longSegmentTransitions : Transitions :=
  [(⟨0⟩, ![⟨7, 0, ![3, 4]⟩, ⟨8, 0, ![4, 5]⟩])]

/-- Modelled from the spec: the container `MemoryMapped::VectorOfVectors` (its
header is not among the sources).  It is an indexed array of vectors; the
physical representation is not specified. -/
abbrev VectorOfVectors (α : Type) := List (List α)

/-- Modelled from the spec: `VectorOfVectors::size(i)`, the number of elements of
the vector stored at index `i`; there is none when `i` is not an index. -/
def VectorOfVectors.size {α : Type} (v : VectorOfVectors α) (i : Nat) : Option Nat :=
  (v.get? i).map List.length

/-- The part of `AssemblyGraph` that stores the links. -/
structure AssemblyGraph where
  transitions : VectorOfVectors (OrientedReadId × Transition)

/-- The member function `AssemblyGraph::linkCoverage`. -/
def AssemblyGraph.linkCoverage (g : AssemblyGraph) (linkId : Nat) : Option Nat :=
  g.transitions.size linkId

/-- An assembly graph with two links, the first with the two sample transitions and
the second with none. -/
def sampleGraph : AssemblyGraph where
  transitions := [sampleTransitions, []]

namespace PseudoPathEntry

/-- The member `PseudoPathEntry::operator<`. -/
def lt (a that : PseudoPathEntry) : Bool :=
  decide (a.ordinals 0 < that.ordinals 0)

end PseudoPathEntry

/-! ## File system helpers (`filesystem.cpp`) -/

/-- The `std::runtime_error` exceptions thrown by the file system helpers, told
apart by the condition that raises them; the text of the message is not kept. -/
inductive RuntimeError where
  | emptyPath
  | cannotExtract
  | doesNotExist
  | alreadyExists
  | unableToRename
  deriving DecidableEq

namespace filesystem

/-- The loop of `shasta::filesystem::extension`, entered with the index `i`.  A
`std::string` is the list of its characters, `path[i]` is the character at
index `i`, and `path.substr(i+1)` drops the first `i+1` characters. -/
def extensionLoop (path : List Char) (i : Nat) : Except RuntimeError (List Char) :=
  let c := path.getD i (Char.ofNat 0)
  if c = '/' then Except.error RuntimeError.cannotExtract
  else if c = '.' then Except.ok (path.drop (i + 1))
  else
    match i with
    | 0 => Except.error RuntimeError.cannotExtract
    | j + 1 => extensionLoop path j

/-- The function `shasta::filesystem::extension`. -/
def extension (path : List Char) : Except RuntimeError (List Char) :=
  if path.isEmpty then Except.error RuntimeError.emptyPath
  else extensionLoop path (path.length - 1)

/-- The loop of `shasta::filesystem::fileName`, entered with the index `i`;
`path.substr(0, i)` keeps the first `i` characters. -/
def fileNameLoop (path : List Char) (i : Nat) : Except RuntimeError (List Char) :=
  let c := path.getD i (Char.ofNat 0)
  if c = '/' then Except.error RuntimeError.cannotExtract
  else if c = '.' then Except.ok (path.take i)
  else
    match i with
    | 0 => Except.error RuntimeError.cannotExtract
    | j + 1 => fileNameLoop path j

/-- The function `shasta::filesystem::fileName`. -/
def fileName (path : List Char) : Except RuntimeError (List Char) :=
  if path.isEmpty then Except.error RuntimeError.emptyPath
  else fileNameLoop path (path.length - 1)

/-- The part of a path after its last slash, the whole path when it has none. -/
def afterLastSlash (path : List Char) : List Char :=
  (path.reverse.takeWhile (fun c => decide (c ≠ '/'))).reverse

/-- A function throws: its result is an exception. -/
def throws {α : Type} (r : Except RuntimeError α) : Prop :=
  ∃ e, r = Except.error e

/-- The operating system as `filesystem::move` sees it: its states, the query
`std::filesystem::exists`, and the call `::rename`, which yields its `int` result
and the state it leaves behind. -/
structure OperatingSystem where
  State : Type
  pathExists : State → List Char → Bool
  rename : State → List Char → List Char → Int × State

/-- What a call of `filesystem::move` leaves behind: its result, the state of the
operating system, and the calls of `::rename` it made. -/
structure MoveOutcome (σ : Type) where
  result : Except RuntimeError Unit
  state : σ
  renameCalls : List (List Char × List Char)

/-- The function `shasta::filesystem::move`. -/
def move (os : OperatingSystem) (s : os.State) (oldPath newPath : List Char) :
    MoveOutcome os.State :=
  if !os.pathExists s oldPath then
    { result := Except.error RuntimeError.doesNotExist, state := s, renameCalls := [] }
  else if os.pathExists s newPath then
    { result := Except.error RuntimeError.alreadyExists, state := s, renameCalls := [] }
  else
    let r := os.rename s oldPath newPath
    if r.1 ≠ 0 then
      { result := Except.error RuntimeError.unableToRename, state := r.2,
        renameCalls := [(oldPath, newPath)] }
    else
      { result := Except.ok (), state := r.2, renameCalls := [(oldPath, newPath)] }

end filesystem

/-! ## Alignment pages of the http server (`AssemblerHttpServer-Alignments.cpp`) -/

namespace OrientedReadId

/-- Modelled from the spec: the constructor `OrientedReadId(readId, strand)` (its
header is not among the sources); an oriented read is a read paired with a
strand, both kept in one integer. -/
def ofReadIdAndStrand (readId strand : Nat) : OrientedReadId :=
  ⟨2 * readId + strand⟩

/-- Modelled from the spec: the member `OrientedReadId::getReadId`. -/
def getReadId (o : OrientedReadId) : Nat := o.value / 2

/-- Modelled from the spec: the member `OrientedReadId::getStrand`. -/
def getStrand (o : OrientedReadId) : Nat := o.value % 2

end OrientedReadId

/-- The class `Alignment` (its header is not among the sources), of which the code
reads `ordinals.size()` only. -/
structure Alignment where
  ordinals : List (Nat × Nat)

/-- The class `AlignmentInfo` (its header is not among the sources), given by the
values of the members that the code reads: `leftTrim(i)`, `rightTrim(i)`,
`minAlignedFraction()`, `computeTrim()`, `maxDrift` and `maxSkip`. -/
structure AlignmentInfo where
  leftTrim : Fin 2 → Nat
  rightTrim : Fin 2 → Nat
  minAlignedFraction : Double
  computeTrim : Nat × Nat
  maxDrift : Nat
  maxSkip : Nat

/-- The class `Histogram2` (its header is not among the sources), given by the
values passed to `update`, in the order of the calls. -/
structure Histogram2 where
  updates : List Nat

/-- The member `Histogram2::update`. -/
def Histogram2.update (h : Histogram2) (x : Nat) : Histogram2 :=
  ⟨h.updates ++ [x]⟩

namespace Assembler

/-- The body of the loop of `Assembler::countDeadEndOverhangs` for the alignment
at index `i`. -/
def countDeadEndOverhang (isLeftEnd : List Bool) (minOverhang : Nat) (i : Nat)
    (alignment : AlignmentInfo) (overhangLengths : Histogram2) : Histogram2 :=
  if isLeftEnd.getD i false then
    let overhangLength := alignment.leftTrim 1
    if overhangLength > minOverhang then overhangLengths.update overhangLength
    else overhangLengths
  else
    let overhangLength := alignment.rightTrim 1
    if overhangLength > minOverhang then overhangLengths.update overhangLength
    else overhangLengths

/-- The loop of `Assembler::countDeadEndOverhangs` over the alignments that remain,
the first of which has index `i`. -/
def countDeadEndOverhangsLoop (isLeftEnd : List Bool) (minOverhang : Nat) :
    List (OrientedReadId × AlignmentInfo) → Nat → Histogram2 → Histogram2
  | [], _, overhangLengths => overhangLengths
  | p :: rest, i, overhangLengths =>
      countDeadEndOverhangsLoop isLeftEnd minOverhang rest (i + 1)
        (countDeadEndOverhang isLeftEnd minOverhang i p.2 overhangLengths)

/-- The function `Assembler::countDeadEndOverhangs`. -/
def countDeadEndOverhangs (allAlignmentInfo : List (OrientedReadId × AlignmentInfo))
    (isLeftEnd : List Bool) (overhangLengths : Histogram2) (minOverhang : Nat) :
    Histogram2 :=
  countDeadEndOverhangsLoop isLeftEnd minOverhang allAlignmentInfo 0 overhangLengths

/-- The overhang of an alignment as the results page of `assessAlignments`
describes it: `leftTrim(1)` at a left end, `rightTrim(1)` otherwise. -/
def overhang (isLeftEnd : Bool) (alignment : AlignmentInfo) : Nat :=
  if isLeftEnd then alignment.leftTrim 1 else alignment.rightTrim 1

/-- The overhangs that the results page of `assessAlignments` announces in the
histogram: "Overhangs less than minOverhang markers were excluded". -/
def announcedOverhangs (allAlignmentInfo : List (OrientedReadId × AlignmentInfo))
    (isLeftEnd : List Bool) (minOverhang : Nat) : List Nat :=
  ((allAlignmentInfo.zip isLeftEnd).map (fun p => overhang p.2 p.1.2)).filter
    (fun x => decide (¬ x < minOverhang))

/-- An alignment whose overhang at a left end is 3 markers. -/
def overhangThree : AlignmentInfo where
  leftTrim := ![0, 3]
  rightTrim := ![0, 0]
  minAlignedFraction := Double.fin 1
  computeTrim := (0, 0)
  maxDrift := 0
  maxSkip := 0

/-- How `Assembler::exploreAlignmentGraph` goes on after writing the form. -/
inductive ExploreOutcome where
  | formOnly
  | invalidReadId
  | invalidStrand
  | graphFor (orientedReadId : OrientedReadId)
  deriving DecidableEq

/-- The function `Assembler::exploreAlignmentGraph` from the test for missing
parameters to the construction of the `OrientedReadId`; `readCount` is
`reads->readCount()`.  The html output is left out: the outcome tells which
branch is taken, the last one being the creation of the local graph. -/
def exploreAlignmentGraph (readCount : Nat) (readIdIsPresent strandIsPresent : Bool)
    (readId strand : Nat) : ExploreOutcome :=
  if !readIdIsPresent || !strandIsPresent then ExploreOutcome.formOnly
  else if readId > readCount then ExploreOutcome.invalidReadId
  else if strand > 1 then ExploreOutcome.invalidStrand
  else ExploreOutcome.graphFor (OrientedReadId.ofReadIdAndStrand readId strand)

/-- The members of `computeAllAlignmentsData` on which the decision to store a
candidate depends. -/
structure ComputeAllAlignmentsData where
  orientedReadId0 : OrientedReadId
  minMarkerCount : Nat
  maxSkip : Nat
  maxDrift : Nat
  minAlignedMarkerCount : Nat
  minAlignedFraction : Double
  maxTrim : Nat
  method : Int

/-- What `computeAllAlignmentsThreadFunction` takes from the rest of the
`Assembler` (not among the sources): the number of markers of an oriented read
and the three alignment functions.  Each of these yields the values of
`alignment` and `alignmentInfo` after the call, or nothing when it throws; the
scores and band parameters, fixed during one run, are part of the functions. -/
structure AlignmentMethods where
  markerCount : OrientedReadId → Nat
  alignOrientedReads : OrientedReadId → OrientedReadId → Option (Alignment × AlignmentInfo)
  alignOrientedReads1 : OrientedReadId → OrientedReadId → Option (Alignment × AlignmentInfo)
  alignOrientedReads3 : OrientedReadId → OrientedReadId → Option (Alignment × AlignmentInfo)

/-- The `try` block of `computeAllAlignmentsThreadFunction`: nothing when an
exception is caught, which includes `SHASTA_ASSERT(0)` for an unknown method. -/
def computeAlignment (methods : AlignmentMethods) (data : ComputeAllAlignmentsData)
    (orientedReadId1 : OrientedReadId) : Option (Alignment × AlignmentInfo) :=
  if data.method = 0 then methods.alignOrientedReads data.orientedReadId0 orientedReadId1
  else if data.method = 1 then methods.alignOrientedReads1 data.orientedReadId0 orientedReadId1
  else if data.method = 3 then methods.alignOrientedReads3 data.orientedReadId0 orientedReadId1
  else none

/-- The body of the loop over strands of `computeAllAlignmentsThreadFunction` for
the candidate `(readId1, strand1)`; `alignments` is the vector of the thread. -/
def processCandidate (methods : AlignmentMethods) (data : ComputeAllAlignmentsData)
    (readId1 strand1 : Nat) (alignments : List (OrientedReadId × AlignmentInfo)) :
    List (OrientedReadId × AlignmentInfo) :=
  let readId0 := data.orientedReadId0.getReadId
  let strand0 := data.orientedReadId0.getStrand
  if readId0 = readId1 ∧ strand0 = strand1 then alignments
  else
    let orientedReadId1 := OrientedReadId.ofReadIdAndStrand readId1 strand1
    if methods.markerCount orientedReadId1 < data.minMarkerCount then alignments
    else
      match computeAlignment methods data orientedReadId1 with
      | none => alignments
      | some (alignment, alignmentInfo) =>
          if alignment.ordinals.length < data.minAlignedMarkerCount ∨
              Double.lt alignmentInfo.minAlignedFraction data.minAlignedFraction = true then
            alignments
          else if alignmentInfo.computeTrim.1 > data.maxTrim ∨
              alignmentInfo.computeTrim.2 > data.maxTrim then alignments
          else if alignmentInfo.maxDrift > data.maxDrift ∨
              alignmentInfo.maxSkip > data.maxSkip then alignments
          else alignments ++ [(orientedReadId1, alignmentInfo)]

/-- The function `Assembler::computeAllAlignmentsThreadFunction`: the loops over
the batches `(begin, end)` handed out by `getNextBatch`, over the read ids from
`begin` up to `end`, and over the two strands. -/
def computeAllAlignmentsThreadFunction (methods : AlignmentMethods)
    (data : ComputeAllAlignmentsData) (batches : List (Nat × Nat))
    (alignments : List (OrientedReadId × AlignmentInfo)) :
    List (OrientedReadId × AlignmentInfo) :=
  batches.foldl
    (fun acc batch =>
      (List.range' batch.1 (batch.2 - batch.1)).foldl
        (fun acc readId1 =>
          [0, 1].foldl (fun acc strand1 => processCandidate methods data readId1 strand1 acc) acc)
        acc)
    alignments

/-- The conditions under which the candidate `(readId1, strand1)` is stored as the
pair `x`, the aligned fraction being accepted when `fractionOk` holds of the
fraction of the alignment and the minimum. -/
def StoreConditions (fractionOk : Double → Double → Bool) (methods : AlignmentMethods)
    (data : ComputeAllAlignmentsData) (readId1 strand1 : Nat)
    (x : OrientedReadId × AlignmentInfo) : Prop :=
  x.1 = OrientedReadId.ofReadIdAndStrand readId1 strand1 ∧
  (data.orientedReadId0.getReadId ≠ readId1 ∨ data.orientedReadId0.getStrand ≠ strand1) ∧
  data.minMarkerCount ≤ methods.markerCount x.1 ∧
  ∃ alignment, computeAlignment methods data x.1 = some (alignment, x.2) ∧
    data.minAlignedMarkerCount ≤ alignment.ordinals.length ∧
    fractionOk x.2.minAlignedFraction data.minAlignedFraction = true ∧
    x.2.computeTrim.1 ≤ data.maxTrim ∧ x.2.computeTrim.2 ≤ data.maxTrim ∧
    x.2.maxDrift ≤ data.maxDrift ∧ x.2.maxSkip ≤ data.maxSkip

/-- The test `fraction >= minimum` on doubles. -/
def fractionAtLeast (fraction minimum : Double) : Bool := Double.le minimum fraction

/-- The test `!(fraction < minimum)` on doubles. -/
def fractionNotBelow (fraction minimum : Double) : Bool := !Double.lt fraction minimum

/-- An alignment info with aligned fraction 1/2 and no trim, drift or skip. -/
def halfAligned : AlignmentInfo where
  leftTrim := ![0, 0]
  rightTrim := ![0, 0]
  minAlignedFraction := Double.fin (1 / 2)
  computeTrim := (0, 0)
  maxDrift := 0
  maxSkip := 0

/-- Alignment functions that always find an alignment of ten markers with aligned
fraction 1/2, for reads of 100 markers. -/
def sampleMethods : AlignmentMethods where
  markerCount := fun _ => 100
  alignOrientedReads := fun _ _ => some (⟨List.replicate 10 (0, 0)⟩, halfAligned)
  alignOrientedReads1 := fun _ _ => some (⟨List.replicate 10 (0, 0)⟩, halfAligned)
  alignOrientedReads3 := fun _ _ => some (⟨List.replicate 10 (0, 0)⟩, halfAligned)

/-- Parameters of a run for read 0 on strand 0 whose minimum aligned fraction is the
given double. -/
def sampleData (minAlignedFraction : Double) : ComputeAllAlignmentsData where
  orientedReadId0 := OrientedReadId.ofReadIdAndStrand 0 0
  minMarkerCount := 10
  maxSkip := 30
  maxDrift := 30
  minAlignedMarkerCount := 5
  minAlignedFraction := minAlignedFraction
  maxTrim := 30
  method := 0

end Assembler

/-! ## Compressed pseudopaths -/

/-- The class `AssemblyGraph::CompressedPseudoPathEntry`. -/
structure CompressedPseudoPathEntry where
  segmentId : Nat
  pseudoPathEntries : Fin 2 → PseudoPathEntry

/-- Modelled from the spec: the linear scan of `computeCompressedPseudoPath` (only
declared in `mode3.hpp`; its body is not among the sources) over the entries that
remain, `current` being the compressed entry that is open.  "Start a new
compressed entry whenever the segment id differs from the previous entry; close
the prior entry recording its first and last raw entry." -/
def compressedPseudoPathScan :
    List PseudoPathEntry → CompressedPseudoPathEntry → List CompressedPseudoPathEntry
  | [], current => [current]
  | entry :: rest, current =>
      if entry.segmentId ≠ current.segmentId then
        current :: compressedPseudoPathScan rest ⟨entry.segmentId, ![entry, entry]⟩
      else
        compressedPseudoPathScan rest
          ⟨current.segmentId, ![current.pseudoPathEntries 0, entry]⟩

/-- Modelled from the spec: the function `computeCompressedPseudoPath` (only
declared in `mode3.hpp`; its body is not among the sources), a linear scan over
the pseudopath of one oriented read that opens the first compressed entry at
the first raw entry. -/
def computeCompressedPseudoPath :
    List PseudoPathEntry → List CompressedPseudoPathEntry
  | [] => []
  | entry :: rest => compressedPseudoPathScan rest ⟨entry.segmentId, ![entry, entry]⟩

/-- The compressed entry `c` describes the span `span` of consecutive raw entries:
the span is not empty, its first and last entries are `pseudoPathEntries[0]` and
`pseudoPathEntries[1]`, and all its entries are on the segment of `c`. -/
def IsSpanOf (c : CompressedPseudoPathEntry) (span : List PseudoPathEntry) : Prop :=
  span ≠ [] ∧ span.head? = some (c.pseudoPathEntries 0) ∧
  span.getLast? = some (c.pseudoPathEntries 1) ∧ ∀ e ∈ span, e.segmentId = c.segmentId

/-- The index ranges `[begin, end)` taken up by consecutive spans, the first of
which starts at index `start`. -/
def spanRanges : List (List PseudoPathEntry) → Nat → List (Nat × Nat)
  | [], _ => []
  | span :: rest, start => (start, start + span.length) :: spanRanges rest (start + span.length)

/-! ## Theorems -/

/-! ### Rounding to binary64 -/

theorem roundHalfEven_nearest (x : ℚ) (n : ℤ) :
    |x - (roundHalfEven x : ℚ)| ≤ |x - (n : ℚ)| := by
  have h1 : (⌊x⌋ : ℚ) ≤ x := Int.floor_le x
  have h2 : x < (⌊x⌋ : ℚ) + 1 := Int.lt_floor_add_one x
  have hn : (n : ℚ) ≤ (⌊x⌋ : ℚ) ∨ (⌊x⌋ : ℚ) + 1 ≤ (n : ℚ) := by
    rcases le_or_lt n ⌊x⌋ with h | h
    · left
      exact_mod_cast h
    · right
      have : ⌊x⌋ + 1 ≤ n := h
      exact_mod_cast this
  have hlow : ∀ y : ℚ, y ≤ x → |x - y| = x - y := fun y hy => abs_of_nonneg (by linarith)
  have hhigh : ∀ y : ℚ, x ≤ y → |x - y| = y - x := fun y hy => by
    rw [abs_of_nonpos (by linarith)]; ring
  unfold roundHalfEven
  split_ifs with a b c
  · rw [hlow _ h1]
    rcases hn with hn | hn
    · rw [hlow _ (hn.trans h1)]; linarith
    · rw [hhigh _ (by linarith)]; linarith
  · push_cast
    rw [hhigh _ h2.le]
    rcases hn with hn | hn
    · rw [hlow _ (hn.trans h1)]; linarith
    · rw [hhigh _ (by linarith)]; linarith
  · rw [hlow _ h1]
    rcases hn with hn | hn
    · rw [hlow _ (hn.trans h1)]; linarith
    · rw [hhigh _ (by linarith)]; linarith
  · push_cast
    rw [hhigh _ h2.le]
    rcases hn with hn | hn
    · rw [hlow _ (hn.trans h1)]; linarith
    · rw [hhigh _ (by linarith)]; linarith

theorem roundHalfEven_error (x : ℚ) : |x - (roundHalfEven x : ℚ)| ≤ 1 / 2 := by
  have h1 : (⌊x⌋ : ℚ) ≤ x := Int.floor_le x
  have h2 : x < (⌊x⌋ : ℚ) + 1 := Int.lt_floor_add_one x
  have ha := roundHalfEven_nearest x ⌊x⌋
  have hb := roundHalfEven_nearest x (⌊x⌋ + 1)
  have ea : |x - (⌊x⌋ : ℚ)| = x - (⌊x⌋ : ℚ) := abs_of_nonneg (by linarith)
  have eb : |x - ((⌊x⌋ + 1 : ℤ) : ℚ)| = (⌊x⌋ : ℚ) + 1 - x := by
    push_cast
    rw [abs_of_nonpos (by linarith)]
    ring
  rw [ea] at ha
  rw [eb] at hb
  by_cases h : x - (⌊x⌋ : ℚ) ≤ 1 / 2
  · linarith
  · linarith

theorem roundHalfEven_eq_of_close (x : ℚ) (m : ℤ) (h : |x - (m : ℚ)| < 1 / 2) :
    roundHalfEven x = m := by
  have h1 := roundHalfEven_nearest x m
  have h2 : |((roundHalfEven x : ℤ) : ℚ) - (m : ℚ)| < 1 := by
    have := abs_sub_le ((roundHalfEven x : ℤ) : ℚ) x (m : ℚ)
    rw [abs_sub_comm ((roundHalfEven x : ℤ) : ℚ) x] at this
    linarith
  have h3 : |roundHalfEven x - m| < 1 := by
    have : ((|roundHalfEven x - m| : ℤ) : ℚ) < 1 := by
      push_cast
      exact h2
    exact_mod_cast this
  have h4 := Int.abs_lt_one_iff.mp h3
  omega

theorem roundHalfEven_intCast (m : ℤ) : roundHalfEven (m : ℚ) = m :=
  roundHalfEven_eq_of_close _ m (by simp)

theorem roundHalfEven_abs_le (x : ℚ) (N : ℤ) (h : |x| ≤ (N : ℚ)) :
    |roundHalfEven x| ≤ N := by
  have he := roundHalfEven_error x
  rw [abs_le] at h he ⊢
  constructor
  · by_contra hc
    have h1 : roundHalfEven x ≤ -N - 1 := by omega
    have h2 : ((roundHalfEven x : ℤ) : ℚ) ≤ -(N : ℚ) - 1 := by exact_mod_cast h1
    linarith [h.1, he.2]
  · by_contra hc
    have h1 : N + 1 ≤ roundHalfEven x := by omega
    have h2 : (N : ℚ) + 1 ≤ ((roundHalfEven x : ℤ) : ℚ) := by exact_mod_cast h1
    linarith [h.2, he.1]

theorem two_zpow_pos (k : ℤ) : (0 : ℚ) < (2 : ℚ) ^ k := zpow_pos (by norm_num) k

theorem nearest_on_grid (q : ℚ) (e : ℤ) (n : ℤ) :
    |q - (roundHalfEven (q / (2 : ℚ) ^ e) : ℚ) * (2 : ℚ) ^ e| ≤ |q - (n : ℚ) * (2 : ℚ) ^ e| := by
  have hg := two_zpow_pos e
  have h := roundHalfEven_nearest (q / (2 : ℚ) ^ e) n
  have e1 : ∀ z : ℚ, q - z * (2 : ℚ) ^ e = (q / (2 : ℚ) ^ e - z) * (2 : ℚ) ^ e := by
    intro z
    rw [sub_mul, div_mul_cancel₀ _ hg.ne.symm]
  rw [e1, e1, abs_mul, abs_mul, abs_of_pos hg]
  exact mul_le_mul_of_nonneg_right h hg.le

theorem ulpExponent_ge (a : ℚ) : -1074 ≤ ulpExponent a := by
  unfold ulpExponent
  have := le_max_right (Int.log 2 a) (-1022)
  omega

theorem log_bounds (a : ℚ) (ha : 0 < a) :
    (2 : ℚ) ^ Int.log 2 a ≤ a ∧ a < (2 : ℚ) ^ (Int.log 2 a + 1) := by
  have h1 := Int.zpow_log_le_self (b := 2) (r := a) (by norm_num) ha
  have h2 := Int.lt_zpow_succ_log_self (b := 2) (by norm_num) a
  constructor
  · exact_mod_cast h1
  · exact_mod_cast h2

theorem abs_lt_grid_top (q : ℚ) :
    |q| < (2 : ℚ) ^ (53 : ℤ) * (2 : ℚ) ^ ulpExponent |q| := by
  rw [← zpow_add₀ (by norm_num : (2 : ℚ) ≠ 0)]
  rcases eq_or_ne q 0 with h | h
  · rw [h, abs_zero]
    exact two_zpow_pos _
  · have ha : 0 < |q| := abs_pos.mpr h
    have hb := (log_bounds |q| ha).2
    refine lt_of_lt_of_le hb ?_
    apply zpow_le_zpow_right₀ (by norm_num)
    unfold ulpExponent
    have := le_max_left (Int.log 2 |q|) (-1022)
    omega

theorem isBinary64_roundToBinary64 (q : ℚ) : IsBinary64 (roundToBinary64 q) := by
  refine ⟨roundHalfEven (q / (2 : ℚ) ^ ulpExponent |q|), ulpExponent |q|, ?_,
    ulpExponent_ge _, rfl⟩
  have h := roundHalfEven_abs_le (q / (2 : ℚ) ^ ulpExponent |q|) (2 ^ 53) ?_
  · exact h
  · have hg := two_zpow_pos (ulpExponent |q|)
    rw [abs_div, abs_of_pos hg, div_le_iff₀ hg]
    have := abs_lt_grid_top q
    push_cast
    have e53 : (2 : ℚ) ^ (53 : ℤ) = (2 : ℚ) ^ (53 : ℕ) := by norm_cast
    rw [e53] at this
    exact this.le

theorem roundToBinary64_zero : roundToBinary64 0 = 0 := by
  unfold roundToBinary64
  have h : roundHalfEven ((0 : ℚ) / (2 : ℚ) ^ ulpExponent |(0 : ℚ)|) = 0 := by
    rw [zero_div]
    exact_mod_cast roundHalfEven_intCast 0
  rw [h]
  simp

theorem roundToBinary64_nearest (q y : ℚ) (hy : IsBinary64 y) :
    |q - roundToBinary64 q| ≤ |q - y| := by
  obtain ⟨m, k, hm, hk, rfl⟩ := hy
  rcases eq_or_ne q 0 with h0 | h0
  · rw [h0, roundToBinary64_zero, sub_zero, abs_zero]
    exact abs_nonneg _
  have two_ne : (2 : ℚ) ≠ 0 := by norm_num
  unfold roundToBinary64
  by_cases hke : ulpExponent |q| ≤ k
  · have hmul : (m : ℚ) * (2 : ℚ) ^ k =
        ((m * 2 ^ (k - ulpExponent |q|).toNat : ℤ) : ℚ) * (2 : ℚ) ^ ulpExponent |q| := by
      have hk2 : (((k - ulpExponent |q|).toNat : ℕ) : ℤ) = k - ulpExponent |q| :=
        Int.toNat_of_nonneg (by omega)
      push_cast
      rw [mul_assoc, ← zpow_natCast, hk2, ← zpow_add₀ two_ne]
      congr 2
      ring
    rw [hmul]
    exact nearest_on_grid q _ _
  · have hlog : Int.log 2 |q| = ulpExponent |q| + 52 := by
      have h1 : ulpExponent |q| = max (Int.log 2 |q|) (-1022) - 52 := rfl
      omega
    have hq : (2 : ℚ) ^ (ulpExponent |q| + 52) ≤ |q| := by
      rw [← hlog]
      exact (log_bounds |q| (abs_pos.mpr h0)).1
    have hy : |(m : ℚ) * (2 : ℚ) ^ k| ≤ (2 : ℚ) ^ (ulpExponent |q| + 52) := by
      rw [abs_mul, abs_of_pos (two_zpow_pos k)]
      have hm2 : |(m : ℚ)| ≤ (2 : ℚ) ^ (53 : ℤ) := by
        have : ((|m| : ℤ) : ℚ) ≤ ((2 ^ 53 : ℤ) : ℚ) := by exact_mod_cast hm
        push_cast at this
        exact_mod_cast this
      have hk2 : (2 : ℚ) ^ k ≤ (2 : ℚ) ^ (ulpExponent |q| - 1) :=
        zpow_le_zpow_right₀ (by norm_num) (by omega)
      have e1 : (2 : ℚ) ^ (ulpExponent |q| + 52) =
          (2 : ℚ) ^ (53 : ℤ) * (2 : ℚ) ^ (ulpExponent |q| - 1) := by
        rw [← zpow_add₀ two_ne]
        congr 1
        ring
      rw [e1]
      exact mul_le_mul hm2 hk2 (two_zpow_pos k).le (two_zpow_pos 53).le
    have e2 : (2 : ℚ) ^ (ulpExponent |q| + 52) =
        (((2 : ℤ) ^ 52 : ℤ) : ℚ) * (2 : ℚ) ^ ulpExponent |q| := by
      push_cast
      rw [add_comm, zpow_add₀ two_ne]
      norm_cast
    rw [abs_le] at hy
    rcases lt_or_gt_of_ne h0 with hneg | hpos
    · have hn := nearest_on_grid q (ulpExponent |q|) (-(2 : ℤ) ^ 52)
      refine hn.trans ?_
      have hq2 : (2 : ℚ) ^ (ulpExponent |q| + 52) ≤ -q := le_of_le_of_eq hq (abs_of_neg hneg)
      have e3 : ((-(2 : ℤ) ^ 52 : ℤ) : ℚ) * (2 : ℚ) ^ ulpExponent |q| =
          -(2 : ℚ) ^ (ulpExponent |q| + 52) := by
        rw [e2]
        push_cast
        ring
      rw [e3, abs_of_nonpos (by linarith)]
      have := neg_le_abs (q - (m : ℚ) * (2 : ℚ) ^ k)
      linarith [hy.1]
    · have hn := nearest_on_grid q (ulpExponent |q|) ((2 : ℤ) ^ 52)
      refine hn.trans ?_
      have hq2 : (2 : ℚ) ^ (ulpExponent |q| + 52) ≤ q := le_of_le_of_eq hq (abs_of_pos hpos)
      rw [← e2, abs_of_nonneg (by linarith)]
      have := le_abs_self (q - (m : ℚ) * (2 : ℚ) ^ k)
      linarith [hy.2]

theorem roundToBinary64_ge (q y : ℚ) (hy : IsBinary64 y) (h : y ≤ q) :
    y ≤ roundToBinary64 q := by
  by_contra hc
  have hn := roundToBinary64_nearest q y hy
  rw [abs_of_nonneg (by linarith), abs_of_nonneg (by linarith)] at hn
  linarith

theorem roundToBinary64_le (q y : ℚ) (hy : IsBinary64 y) (h : q ≤ y) :
    roundToBinary64 q ≤ y := by
  by_contra hc
  have hn := roundToBinary64_nearest q y hy
  rw [abs_of_nonpos (by linarith), abs_of_nonpos (by linarith)] at hn
  linarith

theorem roundToBinary64_eq_self (y : ℚ) (hy : IsBinary64 y) : roundToBinary64 y = y :=
  le_antisymm (roundToBinary64_le y y hy le_rfl) (roundToBinary64_ge y y hy le_rfl)

theorem roundToBinary64_mono {p q : ℚ} (h : p ≤ q) :
    roundToBinary64 p ≤ roundToBinary64 q := by
  by_contra hc
  have hlt : roundToBinary64 q < roundToBinary64 p := not_le.mp hc
  have h1 := roundToBinary64_nearest p _ (isBinary64_roundToBinary64 q)
  have h2 := roundToBinary64_nearest q _ (isBinary64_roundToBinary64 p)
  have hp : roundToBinary64 p + roundToBinary64 q ≤ 2 * p := by
    rcases abs_cases (p - roundToBinary64 p) with ⟨e1, _⟩ | ⟨e1, _⟩ <;>
      rcases abs_cases (p - roundToBinary64 q) with ⟨e2, _⟩ | ⟨e2, _⟩ <;>
      linarith
  have hq : 2 * q ≤ roundToBinary64 p + roundToBinary64 q := by
    rcases abs_cases (q - roundToBinary64 q) with ⟨e1, _⟩ | ⟨e1, _⟩ <;>
      rcases abs_cases (q - roundToBinary64 p) with ⟨e2, _⟩ | ⟨e2, _⟩ <;>
      linarith
  have hpq : p = q := by linarith
  rw [hpq] at hlt
  exact lt_irrefl _ hlt

theorem isBinary64_intCast (z : ℤ) (hz : |z| ≤ 2 ^ 53) : IsBinary64 (z : ℚ) :=
  ⟨z, 0, hz, by norm_num, by simp⟩

theorem isBinary64_natCast (n : ℕ) (hn : n ≤ 2 ^ 53) : IsBinary64 (n : ℚ) := by
  have h := isBinary64_intCast (n : ℤ) (by rw [abs_of_nonneg (by positivity)]; exact_mod_cast hn)
  simpa using h

theorem isBinary64_two_zpow (k : ℤ) (hk : -1074 ≤ k) : IsBinary64 ((2 : ℚ) ^ k) :=
  ⟨1, k, by norm_num, hk, by simp⟩

theorem isBinary64_neg {y : ℚ} (hy : IsBinary64 y) : IsBinary64 (-y) := by
  obtain ⟨m, k, hm, hk, rfl⟩ := hy
  exact ⟨-m, k, by rw [abs_neg]; exact hm, hk, by push_cast; ring⟩

theorem log_eq_of_bounds (a : ℚ) (L : ℤ) (h1 : (2 : ℚ) ^ L ≤ a) (h2 : a < (2 : ℚ) ^ (L + 1)) :
    Int.log 2 a = L := by
  have ha : 0 < a := lt_of_lt_of_le (two_zpow_pos L) h1
  have h3 : L ≤ Int.log 2 a :=
    (Int.zpow_le_iff_le_log (b := 2) (by norm_num) ha).mp (by exact_mod_cast h1)
  have h4 : Int.log 2 a < L + 1 :=
    (Int.lt_zpow_iff_log_lt (b := 2) (by norm_num) ha).mp (by exact_mod_cast h2)
  omega

theorem roundToBinary64_eq_of (q : ℚ) (L M : ℤ) (hL : -1022 ≤ L)
    (h1 : (2 : ℚ) ^ L ≤ |q|) (h2 : |q| < (2 : ℚ) ^ (L + 1))
    (hM : |q / (2 : ℚ) ^ (L - 52) - (M : ℚ)| < 1 / 2) :
    roundToBinary64 q = (M : ℚ) * (2 : ℚ) ^ (L - 52) := by
  have hu : ulpExponent |q| = L - 52 := by
    unfold ulpExponent
    rw [log_eq_of_bounds |q| L h1 h2]
    omega
  unfold roundToBinary64
  rw [hu, roundHalfEven_eq_of_close _ M hM]

/-! ### Auxiliary facts about the arithmetic -/

theorem add64_eq_of_lt {a b : Nat} (h : a + b < two64) : add64 a b = a + b := by
  unfold add64
  exact Nat.mod_eq_of_lt h

theorem roundToBinary64_abs_le (q y : ℚ) (hy : IsBinary64 y) (h : |q| ≤ y) :
    |roundToBinary64 q| ≤ y := by
  rw [abs_le] at h ⊢
  exact ⟨roundToBinary64_ge q (-y) (isBinary64_neg hy) h.1, roundToBinary64_le q y hy h.2⟩

theorem isBinary64_two_pow (n : ℕ) : IsBinary64 ((2 : ℚ) ^ n) := by
  have h := isBinary64_two_zpow (n : ℤ) (by omega)
  rwa [zpow_natCast] at h

theorem isBinary64_zero : IsBinary64 0 := by
  have h := isBinary64_natCast 0 (by norm_num)
  simpa using h

theorem isBinary64_one : IsBinary64 1 := by
  have h := isBinary64_natCast 1 (by norm_num)
  simpa using h

theorem roundToBinary64_intCast (z : ℤ) (hz : |z| ≤ 2 ^ 53) :
    roundToBinary64 (z : ℚ) = (z : ℚ) :=
  roundToBinary64_eq_self _ (isBinary64_intCast z hz)

theorem roundToBinary64_natCast (n : ℕ) (hn : n ≤ 2 ^ 53) :
    roundToBinary64 (n : ℚ) = (n : ℚ) :=
  roundToBinary64_eq_self _ (isBinary64_natCast n hn)

/-- The rounding error on the unit interval is at most half of the spacing `2^-53` of
the doubles just below 1. -/
theorem roundToBinary64_error_unit (q : ℚ) (h0 : 0 ≤ q) (h1 : q ≤ 1) :
    |q - roundToBinary64 q| ≤ 1 / 2 ^ 54 := by
  have hg : (0 : ℚ) < (2 : ℚ) ^ (-53 : ℤ) := two_zpow_pos _
  have hy : IsBinary64 ((roundHalfEven (q / (2 : ℚ) ^ (-53 : ℤ)) : ℚ) * (2 : ℚ) ^ (-53 : ℤ)) := by
    refine ⟨roundHalfEven (q / (2 : ℚ) ^ (-53 : ℤ)), -53, ?_, by norm_num, rfl⟩
    have hb : |q / (2 : ℚ) ^ (-53 : ℤ)| ≤ (((2 : ℤ) ^ 53 : ℤ) : ℚ) := by
      rw [abs_of_nonneg (div_nonneg h0 hg.le), div_le_iff₀ hg]
      have : (((2 : ℤ) ^ 53 : ℤ) : ℚ) * (2 : ℚ) ^ (-53 : ℤ) = 1 := by norm_num
      rw [this]
      exact h1
    exact roundHalfEven_abs_le _ _ hb
  refine le_trans (roundToBinary64_nearest q _ hy) ?_
  have he := roundHalfEven_error (q / (2 : ℚ) ^ (-53 : ℤ))
  have hrw : q - (roundHalfEven (q / (2 : ℚ) ^ (-53 : ℤ)) : ℚ) * (2 : ℚ) ^ (-53 : ℤ) =
      (q / (2 : ℚ) ^ (-53 : ℤ) - (roundHalfEven (q / (2 : ℚ) ^ (-53 : ℤ)) : ℚ)) *
        (2 : ℚ) ^ (-53 : ℤ) := by
    rw [sub_mul, div_mul_cancel₀ _ hg.ne.symm]
  rw [hrw, abs_mul, abs_of_pos hg]
  have h54 : (1 : ℚ) / 2 ^ 54 = 1 / 2 * (2 : ℚ) ^ (-53 : ℤ) := by norm_num
  rw [h54]
  exact mul_le_mul_of_nonneg_right he hg.le

theorem Double.ofRat_of_abs_le (q : ℚ) (h : |q| ≤ 2 ^ 64) :
    Double.ofRat q = Double.fin (roundToBinary64 q) := by
  have hr := roundToBinary64_abs_le q _ (isBinary64_two_pow 64) h
  unfold Double.ofRat
  rw [if_neg]
  intro h2
  have h3 : (2 : ℚ) ^ 1024 ≤ 2 ^ 64 := le_trans h2 hr
  norm_num at h3

theorem Double.ofRat_of_isBinary64 (q : ℚ) (hq : IsBinary64 q) (h : |q| ≤ 2 ^ 64) :
    Double.ofRat q = Double.fin q := by
  rw [Double.ofRat_of_abs_le q h, roundToBinary64_eq_self q hq]

theorem Double.ofRat_zero : Double.ofRat 0 = Double.fin 0 :=
  Double.ofRat_of_isBinary64 0 isBinary64_zero (by norm_num)

theorem Double.ofNat_zero : Double.ofNat 0 = Double.fin 0 := by
  unfold Double.ofNat
  rw [Nat.cast_zero]
  exact Double.ofRat_zero

theorem Double.ofNat_of_le (n : Nat) (hn : n ≤ 2 ^ 53) : Double.ofNat n = Double.fin (n : ℚ) := by
  unfold Double.ofNat
  apply Double.ofRat_of_isBinary64 _ (isBinary64_natCast n hn)
  rw [abs_of_nonneg (Nat.cast_nonneg n)]
  have h : (n : ℚ) ≤ ((2 ^ 53 : ℕ) : ℚ) := by exact_mod_cast hn
  refine le_trans h ?_
  norm_num

theorem Double.ofInt_of_le (z : Int) (hz : |z| ≤ 2 ^ 53) : Double.ofInt z = Double.fin (z : ℚ) := by
  unfold Double.ofInt
  apply Double.ofRat_of_isBinary64 _ (isBinary64_intCast z hz)
  have h : |(z : ℚ)| ≤ (((2 : ℤ) ^ 53 : ℤ) : ℚ) := by
    rw [← Int.cast_abs]
    exact_mod_cast hz
  refine le_trans h ?_
  norm_num

/-- The conversion of a 64 bit unsigned integer is finite, not negative, at most
`2^64`, and at least 1 unless the integer is 0. -/
theorem Double.ofNat_of_lt (n : Nat) (hn : n < two64) :
    Double.ofNat n = Double.fin (roundToBinary64 (n : ℚ)) ∧
    0 ≤ roundToBinary64 (n : ℚ) ∧ roundToBinary64 (n : ℚ) ≤ 2 ^ 64 ∧
    (0 < n → 1 ≤ roundToBinary64 (n : ℚ)) := by
  have h0 : (0 : ℚ) ≤ (n : ℚ) := Nat.cast_nonneg n
  have h64 : (n : ℚ) ≤ 2 ^ 64 := by
    have h : (n : ℚ) ≤ ((2 ^ 64 : ℕ) : ℚ) := by
      unfold two64 at hn
      exact_mod_cast hn.le
    refine le_trans h ?_
    norm_num
  refine ⟨?_, ?_, ?_, ?_⟩
  · unfold Double.ofNat
    apply Double.ofRat_of_abs_le
    rw [abs_of_nonneg h0]
    exact h64
  · exact roundToBinary64_ge _ 0 isBinary64_zero h0
  · exact roundToBinary64_le _ _ (isBinary64_two_pow 64) h64
  · intro hpos
    have h1 : (1 : ℚ) ≤ (n : ℚ) := by exact_mod_cast hpos
    exact roundToBinary64_ge _ 1 isBinary64_one h1

/-- The quotient of two converted 64 bit unsigned integers, the divisor not zero, is
the rounded quotient of the two conversions. -/
theorem Double.div_ofNat_of_pos (a b : Nat) (ha : a < two64) (hb : b < two64) (hb0 : 0 < b) :
    Double.div (Double.ofNat a) (Double.ofNat b) =
      Double.fin (roundToBinary64 (roundToBinary64 (a : ℚ) / roundToBinary64 (b : ℚ))) := by
  obtain ⟨ea, a0, a64, -⟩ := Double.ofNat_of_lt a ha
  obtain ⟨eb, -, -, b1⟩ := Double.ofNat_of_lt b hb
  have hb1 := b1 hb0
  have hbpos : (0 : ℚ) < roundToBinary64 (b : ℚ) := lt_of_lt_of_le one_pos hb1
  rw [ea, eb]
  unfold Double.div
  simp only [hbpos.ne.symm, if_false]
  apply Double.ofRat_of_abs_le
  rw [abs_of_nonneg (div_nonneg a0 hbpos.le), div_le_iff₀ hbpos]
  calc roundToBinary64 (a : ℚ) ≤ 2 ^ 64 := a64
    _ = 2 ^ 64 * 1 := by ring
    _ ≤ 2 ^ 64 * roundToBinary64 (b : ℚ) := by
        apply mul_le_mul_of_nonneg_left hb1
        positivity

/-- The quotient of two converted integers that are at most `2^53`, the divisor not
zero, is the rounded exact quotient. -/
theorem Double.div_ofNat_of_le (a b : Nat) (ha : a ≤ 2 ^ 53) (hb : b ≤ 2 ^ 53) (hb0 : 0 < b) :
    Double.div (Double.ofNat a) (Double.ofNat b) =
      Double.fin (roundToBinary64 ((a : ℚ) / (b : ℚ))) := by
  have ha64 : a < two64 := by unfold two64; omega
  have hb64 : b < two64 := by unfold two64; omega
  rw [Double.div_ofNat_of_pos a b ha64 hb64 hb0, roundToBinary64_natCast a ha,
    roundToBinary64_natCast b hb]

theorem Double.ofRat_ratio (a b : Nat) (ha : a ≤ 2 ^ 53) (hb0 : 0 < b) :
    Double.ofRat ((a : ℚ) / (b : ℚ)) = Double.fin (roundToBinary64 ((a : ℚ) / (b : ℚ))) := by
  apply Double.ofRat_of_abs_le
  have hbq : (1 : ℚ) ≤ (b : ℚ) := by exact_mod_cast hb0
  have hbpos : (0 : ℚ) < (b : ℚ) := lt_of_lt_of_le one_pos hbq
  have haq : (a : ℚ) ≤ ((2 ^ 53 : ℕ) : ℚ) := by exact_mod_cast ha
  rw [abs_of_nonneg (div_nonneg (Nat.cast_nonneg a) hbpos.le), div_le_iff₀ hbpos]
  calc (a : ℚ) ≤ ((2 ^ 53 : ℕ) : ℚ) := haq
    _ ≤ 2 ^ 64 * 1 := by norm_num
    _ ≤ 2 ^ 64 * (b : ℚ) := by
        apply mul_le_mul_of_nonneg_left hbq
        positivity

/-- A certificate for the value of a quotient of two converted integers: the binary
exponent `L` of the exact quotient and the significand `M` it rounds to. -/
theorem Double.div_ofNat_eq_of (a b : Nat) (L M : ℤ) (ha : a ≤ 2 ^ 53) (hb : b ≤ 2 ^ 53)
    (hb0 : 0 < b) (hL : -1022 ≤ L)
    (h1 : (2 : ℚ) ^ L ≤ |(a : ℚ) / (b : ℚ)|) (h2 : |(a : ℚ) / (b : ℚ)| < (2 : ℚ) ^ (L + 1))
    (hM : |(a : ℚ) / (b : ℚ) / (2 : ℚ) ^ (L - 52) - (M : ℚ)| < 1 / 2) :
    Double.div (Double.ofNat a) (Double.ofNat b) =
      Double.fin ((M : ℚ) * (2 : ℚ) ^ (L - 52)) := by
  rw [Double.div_ofNat_of_le a b ha hb hb0, roundToBinary64_eq_of _ L M hL h1 h2 hM]

theorem Double.ratio_in_unit_interval (a b : Nat) (hb : 0 < b) (hab : a ≤ b)
    (hb64 : b < two64) :
    Double.le (Double.fin 0) (Double.div (Double.ofNat a) (Double.ofNat b)) = true ∧
    Double.le (Double.div (Double.ofNat a) (Double.ofNat b)) (Double.fin 1) = true := by
  have ha64 : a < two64 := lt_of_le_of_lt hab hb64
  rw [Double.div_ofNat_of_pos a b ha64 hb64 hb]
  obtain ⟨-, a0, -, -⟩ := Double.ofNat_of_lt a ha64
  obtain ⟨-, -, -, b1⟩ := Double.ofNat_of_lt b hb64
  have hbpos : (0 : ℚ) < roundToBinary64 (b : ℚ) := lt_of_lt_of_le one_pos (b1 hb)
  have hmono : roundToBinary64 (a : ℚ) ≤ roundToBinary64 (b : ℚ) :=
    roundToBinary64_mono (by exact_mod_cast hab)
  constructor
  · simp only [Double.le, decide_eq_true_eq]
    exact roundToBinary64_ge _ 0 isBinary64_zero (div_nonneg a0 hbpos.le)
  · simp only [Double.le, decide_eq_true_eq]
    apply roundToBinary64_le _ 1 isBinary64_one
    rw [div_le_one hbpos]
    exact hmono

theorem Double.ofNat_two64_sub_one : Double.ofNat (2 ^ 64 - 1) = Double.fin (2 ^ 64) := by
  have h := roundToBinary64_eq_of (((2 ^ 64 - 1 : ℕ) : ℚ)) 63 (2 ^ 53) (by norm_num)
    (by norm_num [abs_of_pos]) (by norm_num [abs_of_pos]) (by norm_num [abs_lt])
  have hv : (((2 : ℤ) ^ 53 : ℤ) : ℚ) * (2 : ℚ) ^ ((63 : ℤ) - 52) = 2 ^ 64 := by norm_num
  rw [hv] at h
  rw [(Double.ofNat_of_lt (2 ^ 64 - 1) (by norm_num [two64])).1, h]

theorem Double.max_eq_or (a b : Double) : Double.max a b = a ∨ Double.max a b = b := by
  unfold Double.max
  split_ifs
  · exact Or.inr rfl
  · exact Or.inl rfl

theorem Double.le_max_of_not_nan (a b : Double) (ha : a.isNan = false) (hb : b.isNan = false) :
    Double.le a (Double.max a b) = true ∧ Double.le b (Double.max a b) = true := by
  cases a <;> cases b <;> simp_all [Double.max, Double.lt, Double.le, Double.isNan]
  · rename_i p q
    split_ifs with h
    · simp [Double.le, h.le]
    · simp [Double.le, not_lt.mp h]
  · rename_i p n
    cases n <;> simp [Double.le]
  · rename_i n q
    cases n <;> simp [Double.le]
  · rename_i n m
    cases n <;> cases m <;> simp [Double.le]

theorem Double.max_le_iff_of_not_nan (a b t : Double) (ha : a.isNan = false)
    (hb : b.isNan = false) :
    Double.le (Double.max a b) t = true ↔ (Double.le a t = true ∧ Double.le b t = true) := by
  cases a with
  | nan => simp [Double.isNan] at ha
  | fin p =>
    cases b with
    | nan => simp [Double.isNan] at hb
    | fin q =>
      by_cases h : p < q
      · have hm : Double.max (Double.fin p) (Double.fin q) = Double.fin q := by
          simp [Double.max, Double.lt, h]
        rw [hm]
        cases t with
        | fin r =>
          simp only [Double.le, decide_eq_true_eq]
          exact ⟨fun hq => ⟨h.le.trans hq, hq⟩, fun hq => hq.2⟩
        | inf n => simp [Double.le]
        | nan => simp [Double.le]
      · have hm : Double.max (Double.fin p) (Double.fin q) = Double.fin p := by
          simp [Double.max, Double.lt, h]
        rw [hm]
        cases t with
        | fin r =>
          simp only [Double.le, decide_eq_true_eq]
          exact ⟨fun hp => ⟨hp, (not_lt.mp h).trans hp⟩, fun hp => hp.1⟩
        | inf n => simp [Double.le]
        | nan => simp [Double.le]
    | inf m =>
      cases m <;> cases t <;> simp [Double.max, Double.lt, Double.le]
  | inf n =>
    cases b with
    | nan => simp [Double.isNan] at hb
    | fin q =>
      cases n <;> cases t <;> simp [Double.max, Double.lt, Double.le]
    | inf m =>
      cases n <;> cases m <;> cases t <;> simp [Double.max, Double.lt, Double.le]


theorem Double.div_ofNat_not_nan (a b : Nat) (ha : a < two64) (hb : b < two64)
    (h : a ≠ 0 ∨ b ≠ 0) :
    (Double.div (Double.ofNat a) (Double.ofNat b)).isNan = false := by
  by_cases hb0 : b = 0
  · have ha0 : 0 < a := by
      rcases h with h | h
      · exact Nat.pos_of_ne_zero h
      · exact absurd hb0 h
    obtain ⟨ea, -, -, a1⟩ := Double.ofNat_of_lt a ha
    have hapos : (0 : ℚ) < roundToBinary64 (a : ℚ) := lt_of_lt_of_le one_pos (a1 ha0)
    rw [hb0, Double.ofNat_zero, ea]
    simp [Double.div, hapos.ne.symm, Double.isNan]
  · rw [Double.div_ofNat_of_pos a b ha hb (Nat.pos_of_ne_zero hb0)]
    rfl

/-! ### Segment pair statistics -/

/-- The quotient of two converted integers that are at most `2^53` is the double
nearest to the exact quotient: it is a binary64 number, and no binary64 number is
closer to the exact quotient. -/
theorem Double.div_ofNat_nearest (a b : Nat) (ha : a ≤ 2 ^ 53) (hb : b ≤ 2 ^ 53)
    (hb0 : 0 < b) :
    Double.div (Double.ofNat a) (Double.ofNat b) = Double.ofRat ((a : ℚ) / (b : ℚ)) ∧
    ∃ r, Double.div (Double.ofNat a) (Double.ofNat b) = Double.fin r ∧ IsBinary64 r ∧
      ∀ y, IsBinary64 y → |(a : ℚ) / (b : ℚ) - r| ≤ |(a : ℚ) / (b : ℚ) - y| := by
  rw [Double.div_ofNat_of_le a b ha hb hb0, Double.ofRat_ratio a b ha hb0]
  exact ⟨rfl, _, rfl, isBinary64_roundToBinary64 _, roundToBinary64_nearest _⟩

namespace SegmentPairInformation

theorem scenario_unexplainedFraction (i : Fin 2) :
    scenario.unexplainedFraction i = Double.fin (3602879701896397 / 2 ^ 55) := by
  have h := Double.div_ofNat_eq_of 2 20 (-4) 7205759403792794 (by norm_num) (by norm_num)
    (by norm_num) (by norm_num) (by norm_num [abs_of_pos]) (by norm_num [abs_of_pos])
    (by norm_num [abs_lt])
  have hv : ((7205759403792794 : ℤ) : ℚ) * (2 : ℚ) ^ ((-4 : ℤ) - 52) =
      3602879701896397 / 2 ^ 55 := by norm_num
  rw [hv] at h
  have e : scenario.unexplainedFraction i = Double.div (Double.ofNat 2) (Double.ofNat 20) := by
    fin_cases i <;> rfl
  rw [e, h]

theorem scenario_jaccard : scenario.jaccard = Double.fin (7369526662969903 / 2 ^ 53) := by
  have h := Double.div_ofNat_eq_of 18 22 (-1) 7369526662969903 (by norm_num) (by norm_num)
    (by norm_num) (by norm_num) (by norm_num [abs_of_pos]) (by norm_num [abs_of_pos])
    (by norm_num [abs_lt])
  have hv : ((7369526662969903 : ℤ) : ℚ) * (2 : ℚ) ^ ((-1 : ℤ) - 52) =
      7369526662969903 / 2 ^ 53 := by norm_num
  rw [hv] at h
  have e : scenario.jaccard = Double.div (Double.ofNat 18) (Double.ofNat 22) := rfl
  rw [e, h]

theorem overflowPair_unexplainedFraction :
    overflowPair.unexplainedFraction 0 = Double.fin 2 := by
  have e : overflowPair.unexplainedFraction 0 =
      Double.div (Double.ofNat 2) (Double.ofNat 1) := by
    simp [unexplainedFraction, unexplainedDenominator, overflowPair, add64, two64]
  rw [e, Double.div_ofNat_of_le 2 1 (by norm_num) (by norm_num) (by norm_num)]
  have h := roundToBinary64_natCast 2 (by norm_num)
  norm_num at h ⊢
  exact h

theorem overflowPair_jaccard : overflowPair.jaccard = Double.fin (2 ^ 64) := by
  have e : overflowPair.jaccard =
      Double.div (Double.ofNat (2 ^ 64 - 1)) (Double.ofNat 1) := by
    simp [jaccard, jaccardDenominator, overflowPair, add64, two64]
  rw [e, Double.ofNat_two64_sub_one, Double.ofNat_of_le 1 (by norm_num)]
  have h := Double.ofRat_of_isBinary64 _ (isBinary64_two_pow 64) (by norm_num [abs_of_pos])
  simp only [Double.div, Nat.cast_one, one_ne_zero, if_false, div_one]
  exact h

/-- C1, counterexample: the value is not always the exact ratio.  For the repeat
detection scenario (commonCount = 18, unexplainedCount[0] = 2) unexplainedFraction(0)
is the double 3602879701896397 / 2^55 and not the exact ratio 2/20, which no double
equals.  For the in-range pair with commonCount = 2^64 - 1 and unexplainedCount[0] = 2
the 64 bit sum wraps to 1 and unexplainedFraction(0) is 2, not 2 / (2^64 + 1). -/
theorem unexplainedFraction_exact_ratio_counterexample :
    (scenario.InRange ∧
      0 < scenario.commonCount + scenario.unexplainedCount 0 ∧
      scenario.unexplainedFraction 0 = Double.fin (3602879701896397 / 2 ^ 55) ∧
      scenario.unexplainedFraction 0 ≠
        Double.fin ((scenario.unexplainedCount 0 : ℚ) /
          ((scenario.commonCount + scenario.unexplainedCount 0 : ℕ) : ℚ))) ∧
    (overflowPair.InRange ∧
      0 < overflowPair.commonCount + overflowPair.unexplainedCount 0 ∧
      overflowPair.unexplainedFraction 0 = Double.fin 2 ∧
      overflowPair.unexplainedFraction 0 ≠
        Double.fin ((overflowPair.unexplainedCount 0 : ℚ) /
          ((overflowPair.commonCount + overflowPair.unexplainedCount 0 : ℕ) : ℚ))) := by
  refine ⟨⟨?_, ?_, scenario_unexplainedFraction 0, ?_⟩,
    ⟨?_, ?_, overflowPair_unexplainedFraction, ?_⟩⟩
  · simp [InRange, scenario, two64, Fin.forall_fin_two]
  · simp [scenario]
  · rw [scenario_unexplainedFraction 0]
    intro h
    injection h with h
    simp [scenario] at h
    norm_num at h
  · simp [InRange, overflowPair, two64, Fin.forall_fin_two]
  · simp [overflowPair]
  · rw [overflowPair_unexplainedFraction]
    intro h
    injection h with h
    simp [overflowPair] at h
    norm_num at h

/-- C1 (amended): for every SegmentPairInformation and every side i for which
commonCount + unexplainedCount[i] is positive and at most 2^53 (so that the 64 bit sum
does not overflow and both conversions to double are exact), unexplainedFraction(i) is
the double nearest to the exact ratio
unexplainedCount[i] / (commonCount + unexplainedCount[i]): it is the rounded exact
ratio, a binary64 number such that no binary64 number is closer to the exact ratio,
it differs from the exact ratio by at most 2^-54, and it is the exact ratio whenever
that is a binary64 number.  For every SegmentPairInformation the value depends only
on commonCount and unexplainedCount[i], not on shortCount, totalCount, offset or the
other side. -/
theorem unexplainedFraction_eq_rounded_ratio (s : SegmentPairInformation) (i : Fin 2)
    (hpos : 0 < s.commonCount + s.unexplainedCount i)
    (hno : s.commonCount + s.unexplainedCount i ≤ 2 ^ 53) :
    s.unexplainedFraction i =
      Double.ofRat ((s.unexplainedCount i : ℚ) /
        ((s.commonCount + s.unexplainedCount i : ℕ) : ℚ)) ∧
    (∃ r, s.unexplainedFraction i = Double.fin r ∧ IsBinary64 r ∧
      (∀ y, IsBinary64 y →
        |(s.unexplainedCount i : ℚ) / ((s.commonCount + s.unexplainedCount i : ℕ) : ℚ) - r| ≤
          |(s.unexplainedCount i : ℚ) /
            ((s.commonCount + s.unexplainedCount i : ℕ) : ℚ) - y|) ∧
      |(s.unexplainedCount i : ℚ) / ((s.commonCount + s.unexplainedCount i : ℕ) : ℚ) - r| ≤
        1 / 2 ^ 54 ∧
      (IsBinary64 ((s.unexplainedCount i : ℚ) /
          ((s.commonCount + s.unexplainedCount i : ℕ) : ℚ)) →
        r = (s.unexplainedCount i : ℚ) /
          ((s.commonCount + s.unexplainedCount i : ℕ) : ℚ))) ∧
    ∀ t : SegmentPairInformation, t.commonCount = s.commonCount →
      t.unexplainedCount i = s.unexplainedCount i →
      t.unexplainedFraction i = s.unexplainedFraction i := by
  have hu : s.unexplainedCount i ≤ 2 ^ 53 := by omega
  have h64 : s.commonCount + s.unexplainedCount i < two64 := by unfold two64; omega
  have e : s.unexplainedFraction i =
      Double.fin (roundToBinary64 ((s.unexplainedCount i : ℚ) /
        ((s.commonCount + s.unexplainedCount i : ℕ) : ℚ))) := by
    unfold unexplainedFraction unexplainedDenominator
    rw [add64_eq_of_lt h64]
    exact Double.div_ofNat_of_le _ _ hu hno hpos
  have hden : (0 : ℚ) < ((s.commonCount + s.unexplainedCount i : ℕ) : ℚ) := by
    exact_mod_cast hpos
  have hq0 : (0 : ℚ) ≤ (s.unexplainedCount i : ℚ) /
      ((s.commonCount + s.unexplainedCount i : ℕ) : ℚ) :=
    div_nonneg (Nat.cast_nonneg _) hden.le
  have hq1 : (s.unexplainedCount i : ℚ) /
      ((s.commonCount + s.unexplainedCount i : ℕ) : ℚ) ≤ 1 := by
    rw [div_le_one hden]
    exact_mod_cast Nat.le_add_left _ _
  refine ⟨?_, ⟨_, e, isBinary64_roundToBinary64 _, roundToBinary64_nearest _,
    roundToBinary64_error_unit _ hq0 hq1, roundToBinary64_eq_self _⟩, ?_⟩
  · rw [e, Double.ofRat_ratio _ _ hu hpos]
  · intro t hc hu
    unfold unexplainedFraction unexplainedDenominator
    rw [hc, hu]

/-- C1, witness: the amended statement applied to side 0 of the repeat detection
scenario, where the exact ratio is 2 / (18 + 2). -/
theorem unexplainedFraction_eq_rounded_ratio_witness :
    (0 < scenario.commonCount + scenario.unexplainedCount 0 ∧
      scenario.commonCount + scenario.unexplainedCount 0 ≤ 2 ^ 53) ∧
    scenario.unexplainedFraction 0 =
      Double.ofRat ((scenario.unexplainedCount 0 : ℚ) /
        ((scenario.commonCount + scenario.unexplainedCount 0 : ℕ) : ℚ)) :=
  ⟨⟨by simp [scenario], by simp [scenario]⟩,
    (unexplainedFraction_eq_rounded_ratio scenario 0
      (by simp [scenario]) (by simp [scenario])).1⟩

/-- C2, counterexample: the value is not always the exact ratio.  For the repeat
detection scenario (commonCount = 18, unexplainedCount = {2, 2}) jaccard() is the
double 7369526662969903 / 2^53 and not the exact ratio 18/22, which no double equals.
For the in-range pair with commonCount = 2^64 - 1 and unexplainedCount = {2, 0} the
64 bit sum wraps to 1 and jaccard() is 2^64, not (2^64 - 1) / (2^64 + 1). -/
theorem jaccard_exact_ratio_counterexample :
    (scenario.InRange ∧
      0 < scenario.commonCount + scenario.unexplainedCount 0 +
        scenario.unexplainedCount 1 ∧
      scenario.jaccard = Double.fin (7369526662969903 / 2 ^ 53) ∧
      scenario.jaccard ≠ Double.fin (18 / 22) ∧
      scenario.jaccard ≠
        Double.fin ((scenario.commonCount : ℚ) /
          ((scenario.commonCount + scenario.unexplainedCount 0 +
            scenario.unexplainedCount 1 : ℕ) : ℚ))) ∧
    (overflowPair.InRange ∧
      0 < overflowPair.commonCount + overflowPair.unexplainedCount 0 +
        overflowPair.unexplainedCount 1 ∧
      overflowPair.jaccard = Double.fin (2 ^ 64) ∧
      overflowPair.jaccard ≠
        Double.fin ((overflowPair.commonCount : ℚ) /
          ((overflowPair.commonCount + overflowPair.unexplainedCount 0 +
            overflowPair.unexplainedCount 1 : ℕ) : ℚ))) := by
  refine ⟨⟨?_, ?_, scenario_jaccard, ?_, ?_⟩, ⟨?_, ?_, overflowPair_jaccard, ?_⟩⟩
  · simp [InRange, scenario, two64, Fin.forall_fin_two]
  · simp [scenario]
  · rw [scenario_jaccard]
    intro h
    injection h with h
    norm_num at h
  · rw [scenario_jaccard]
    intro h
    injection h with h
    simp [scenario] at h
    norm_num at h
  · simp [InRange, overflowPair, two64, Fin.forall_fin_two]
  · simp [overflowPair]
  · rw [overflowPair_jaccard]
    intro h
    injection h with h
    simp [overflowPair] at h
    norm_num at h

/-- C2 (amended): for every SegmentPairInformation for which
commonCount + unexplainedCount[0] + unexplainedCount[1] is positive and at most 2^53
(so that the 64 bit sums do not overflow and both conversions to double are exact),
jaccard() is the double nearest to the exact ratio
commonCount / (commonCount + unexplainedCount[0] + unexplainedCount[1]): it is the
rounded exact ratio, a binary64 number such that no binary64 number is closer to the
exact ratio, it differs from the exact ratio by at most 2^-54, and it is the exact
ratio whenever that is a binary64 number.  The short reads never count, as the value
is the same for every object with the same commonCount and unexplainedCount.  For
totalCount = {20,20}, commonCount = 18, unexplainedCount = {2,2}, shortCount = {0,0}
it is the double nearest to 18/22, which is 7369526662969903 / 2^53. -/
theorem jaccard_eq_rounded_ratio (s : SegmentPairInformation)
    (hpos : 0 < s.commonCount + s.unexplainedCount 0 + s.unexplainedCount 1)
    (hno : s.commonCount + s.unexplainedCount 0 + s.unexplainedCount 1 ≤ 2 ^ 53) :
    s.jaccard =
      Double.ofRat ((s.commonCount : ℚ) /
        ((s.commonCount + s.unexplainedCount 0 + s.unexplainedCount 1 : ℕ) : ℚ)) ∧
    (∃ r, s.jaccard = Double.fin r ∧ IsBinary64 r ∧
      (∀ y, IsBinary64 y →
        |(s.commonCount : ℚ) /
            ((s.commonCount + s.unexplainedCount 0 + s.unexplainedCount 1 : ℕ) : ℚ) - r| ≤
          |(s.commonCount : ℚ) /
            ((s.commonCount + s.unexplainedCount 0 + s.unexplainedCount 1 : ℕ) : ℚ) - y|) ∧
      |(s.commonCount : ℚ) /
          ((s.commonCount + s.unexplainedCount 0 + s.unexplainedCount 1 : ℕ) : ℚ) - r| ≤
        1 / 2 ^ 54 ∧
      (IsBinary64 ((s.commonCount : ℚ) /
          ((s.commonCount + s.unexplainedCount 0 + s.unexplainedCount 1 : ℕ) : ℚ)) →
        r = (s.commonCount : ℚ) /
          ((s.commonCount + s.unexplainedCount 0 + s.unexplainedCount 1 : ℕ) : ℚ))) ∧
    (∀ t : SegmentPairInformation, t.commonCount = s.commonCount →
      t.unexplainedCount = s.unexplainedCount → t.jaccard = s.jaccard) ∧
    (scenario.jaccard = Double.ofRat (18 / 22) ∧
      scenario.jaccard = Double.fin (7369526662969903 / 2 ^ 53)) := by
  have hcle : s.commonCount ≤ 2 ^ 53 := by omega
  have h0 : s.commonCount + s.unexplainedCount 0 < two64 := by unfold two64; omega
  have h64 : s.commonCount + s.unexplainedCount 0 + s.unexplainedCount 1 < two64 := by
    unfold two64; omega
  have e : s.jaccard =
      Double.fin (roundToBinary64 ((s.commonCount : ℚ) /
        ((s.commonCount + s.unexplainedCount 0 + s.unexplainedCount 1 : ℕ) : ℚ))) := by
    unfold jaccard jaccardDenominator
    rw [add64_eq_of_lt h0, add64_eq_of_lt h64]
    exact Double.div_ofNat_of_le _ _ hcle hno hpos
  have hden : (0 : ℚ) <
      ((s.commonCount + s.unexplainedCount 0 + s.unexplainedCount 1 : ℕ) : ℚ) := by
    exact_mod_cast hpos
  have hq0 : (0 : ℚ) ≤ (s.commonCount : ℚ) /
      ((s.commonCount + s.unexplainedCount 0 + s.unexplainedCount 1 : ℕ) : ℚ) :=
    div_nonneg (Nat.cast_nonneg _) hden.le
  have hq1 : (s.commonCount : ℚ) /
      ((s.commonCount + s.unexplainedCount 0 + s.unexplainedCount 1 : ℕ) : ℚ) ≤ 1 := by
    rw [div_le_one hden]
    have : s.commonCount ≤ s.commonCount + s.unexplainedCount 0 + s.unexplainedCount 1 := by
      omega
    exact_mod_cast this
  refine ⟨?_, ⟨_, e, isBinary64_roundToBinary64 _, roundToBinary64_nearest _,
    roundToBinary64_error_unit _ hq0 hq1, roundToBinary64_eq_self _⟩, ?_, ?_, scenario_jaccard⟩
  · rw [e, Double.ofRat_ratio _ _ hcle hpos]
  · intro t hc hu
    unfold jaccard jaccardDenominator
    rw [hc, hu]
  · have h := Double.div_ofNat_nearest 18 22 (by norm_num) (by norm_num) (by norm_num)
    have e2 : scenario.jaccard = Double.div (Double.ofNat 18) (Double.ofNat 22) := rfl
    rw [e2, h.1]
    norm_num

/-- C2, witness: the amended statement applied to the repeat detection scenario. -/
theorem jaccard_eq_rounded_ratio_witness :
    (0 < scenario.commonCount + scenario.unexplainedCount 0 + scenario.unexplainedCount 1 ∧
      scenario.commonCount + scenario.unexplainedCount 0 + scenario.unexplainedCount 1 ≤
        2 ^ 53) ∧
    scenario.jaccard =
      Double.ofRat ((scenario.commonCount : ℚ) /
        ((scenario.commonCount + scenario.unexplainedCount 0 +
          scenario.unexplainedCount 1 : ℕ) : ℚ)) :=
  ⟨⟨by simp [scenario], by simp [scenario]⟩,
    (jaccard_eq_rounded_ratio scenario (by simp [scenario]) (by simp [scenario])).1⟩

/-- C3: for every SegmentPairInformation with commonCount > 0 whose 64 bit sums do
not overflow, unexplainedFraction(i) lies between 0 and 1 for both sides i, and
jaccard() lies between 0 and 1. -/
theorem fractions_in_unit_interval (s : SegmentPairInformation)
    (hc : 0 < s.commonCount)
    (hno : s.commonCount + s.unexplainedCount 0 + s.unexplainedCount 1 < two64) :
    (∀ i : Fin 2,
      Double.le (Double.fin 0) (s.unexplainedFraction i) = true ∧
      Double.le (s.unexplainedFraction i) (Double.fin 1) = true) ∧
    Double.le (Double.fin 0) s.jaccard = true ∧
    Double.le s.jaccard (Double.fin 1) = true := by
  constructor
  · intro i
    have hi : s.commonCount + s.unexplainedCount i < two64 := by
      fin_cases i
      · simp only [Fin.zero_eta]; omega
      · simp only [Fin.mk_one]; omega
    unfold unexplainedFraction unexplainedDenominator
    rw [add64_eq_of_lt hi]
    exact Double.ratio_in_unit_interval _ _ (by omega) (by omega) hi
  · unfold jaccard jaccardDenominator
    have h0 : s.commonCount + s.unexplainedCount 0 < two64 := by omega
    rw [add64_eq_of_lt h0, add64_eq_of_lt hno]
    exact Double.ratio_in_unit_interval _ _ (by omega) (by omega) hno

/-- C3, witness: the bounds for the repeat detection scenario. -/
theorem fractions_in_unit_interval_witness :
    (∀ i : Fin 2,
      Double.le (Double.fin 0) (scenario.unexplainedFraction i) = true ∧
      Double.le (scenario.unexplainedFraction i) (Double.fin 1) = true) ∧
    Double.le (Double.fin 0) scenario.jaccard = true ∧
    Double.le scenario.jaccard (Double.fin 1) = true :=
  fractions_in_unit_interval scenario (by simp [scenario]) (by simp [scenario, two64])

theorem check_eq_ok_iff_sums (s : SegmentPairInformation) :
    s.check = Except.ok () ↔
      (add64 (add64 s.commonCount (s.unexplainedCount 0)) (s.shortCount 0) = s.totalCount 0 ∧
       add64 (add64 s.commonCount (s.unexplainedCount 1)) (s.shortCount 1) = s.totalCount 1) := by
  by_cases h0 : s.checkedSum 0 = s.totalCount 0 <;>
    by_cases h1 : s.checkedSum 1 = s.totalCount 1 <;>
    simp [check, SHASTA_ASSERT, h0, h1, bind, Except.bind, pure, Except.pure] <;>
    simp_all [checkedSum]

/-- C4: check() completes without an assertion failure if and only if the asserted
comparison commonCount + unexplainedCount[i] + shortCount[i] == totalCount[i] (the
sum being the 64 bit sum the code forms) holds for both i = 0 and i = 1; a
violation on either side alone makes it fail; and when the sum does not overflow
the comparison is the equality of the exact sum with totalCount[i]. -/
theorem check_ok_iff (s : SegmentPairInformation) :
    (s.check = Except.ok () ↔
      (add64 (add64 s.commonCount (s.unexplainedCount 0)) (s.shortCount 0) = s.totalCount 0 ∧
       add64 (add64 s.commonCount (s.unexplainedCount 1)) (s.shortCount 1) = s.totalCount 1)) ∧
    (∀ i : Fin 2,
      add64 (add64 s.commonCount (s.unexplainedCount i)) (s.shortCount i) ≠ s.totalCount i →
      s.check = Except.error Failure.assertionFailed) ∧
    (∀ i : Fin 2, s.commonCount + s.unexplainedCount i + s.shortCount i < two64 →
      (add64 (add64 s.commonCount (s.unexplainedCount i)) (s.shortCount i) = s.totalCount i ↔
        s.commonCount + s.unexplainedCount i + s.shortCount i = s.totalCount i)) := by
  refine ⟨check_eq_ok_iff_sums s, ?_, ?_⟩
  · intro i hi
    by_cases h0 : s.checkedSum 0 = s.totalCount 0
    · have h1 : ¬ s.checkedSum 1 = s.totalCount 1 := by
        fin_cases i
        · exact absurd h0 hi
        · exact hi
      simp [check, SHASTA_ASSERT, h0, h1, bind, Except.bind, pure, Except.pure]
    · simp [check, SHASTA_ASSERT, h0, bind, Except.bind, pure, Except.pure]
  · intro i hi
    have h0 : s.commonCount + s.unexplainedCount i < two64 := by omega
    rw [add64_eq_of_lt h0, add64_eq_of_lt hi]

/-- C5: for every SegmentPairInformation that passes check() with commonCount > 0
and shortCount[i] = 0, unexplainedFraction(i) is the quotient of
unexplainedCount[i] by totalCount[i] as the code would form it,
double(unexplainedCount[i]) / double(totalCount[i]); when
commonCount + unexplainedCount[i] is at most 2^53 this is the double nearest to the
exact ratio unexplainedCount[i] / totalCount[i].  For totalCount = {20,20},
commonCount = 18, unexplainedCount = {2,2}, shortCount = {0,0} both sides give the
double quotient 2.0 / 20.0, which is the double 0.1 (the double nearest to 1/10,
3602879701896397 / 2^55). -/
theorem unexplainedFraction_eq_over_total (s : SegmentPairInformation) (i : Fin 2)
    (hcheck : s.check = Except.ok ()) (hc : 0 < s.commonCount)
    (hshort : s.shortCount i = 0) :
    s.unexplainedFraction i =
      Double.div (Double.ofNat (s.unexplainedCount i)) (Double.ofNat (s.totalCount i)) ∧
    (s.commonCount + s.unexplainedCount i ≤ 2 ^ 53 →
      s.unexplainedFraction i =
        Double.ofRat ((s.unexplainedCount i : ℚ) / (s.totalCount i : ℚ)) ∧
      ∃ r, s.unexplainedFraction i = Double.fin r ∧ IsBinary64 r ∧
        ∀ y, IsBinary64 y →
          |(s.unexplainedCount i : ℚ) / (s.totalCount i : ℚ) - r| ≤
            |(s.unexplainedCount i : ℚ) / (s.totalCount i : ℚ) - y|) ∧
    (scenario.unexplainedFraction 0 = Double.div (Double.ofNat 2) (Double.ofNat 20) ∧
      scenario.unexplainedFraction 1 = Double.div (Double.ofNat 2) (Double.ofNat 20) ∧
      Double.div (Double.ofNat 2) (Double.ofNat 20) = Double.ofRat (1 / 10) ∧
      Double.ofRat (1 / 10) = Double.fin (3602879701896397 / 2 ^ 55)) := by
  have htotal : s.unexplainedDenominator i = s.totalCount i := by
    have h := (check_eq_ok_iff_sums s).1 hcheck
    have hi : add64 (add64 s.commonCount (s.unexplainedCount i)) (s.shortCount i) =
        s.totalCount i := by
      fin_cases i
      · exact h.1
      · exact h.2
    rw [hshort] at hi
    unfold unexplainedDenominator
    rw [← hi]
    simp [add64]
  have e : s.unexplainedFraction i =
      Double.div (Double.ofNat (s.unexplainedCount i)) (Double.ofNat (s.totalCount i)) := by
    unfold unexplainedFraction
    rw [htotal]
  have hs : Double.div (Double.ofNat 2) (Double.ofNat 20) = Double.ofRat (1 / 10) := by
    have h := (Double.div_ofNat_nearest 2 20 (by norm_num) (by norm_num) (by norm_num)).1
    rw [h]
    norm_num
  refine ⟨e, ?_, rfl, rfl, hs, ?_⟩
  · intro hno
    have h64 : s.commonCount + s.unexplainedCount i < two64 := by unfold two64; omega
    have hsum : s.totalCount i = s.commonCount + s.unexplainedCount i := by
      rw [← htotal]
      unfold unexplainedDenominator
      exact add64_eq_of_lt h64
    have h := Double.div_ofNat_nearest (s.unexplainedCount i) (s.totalCount i) (by omega)
      (by omega) (by omega)
    rw [e]
    exact h
  · rw [← hs]
    have h := scenario_unexplainedFraction 0
    have e0 : scenario.unexplainedFraction 0 =
        Double.div (Double.ofNat 2) (Double.ofNat 20) := rfl
    rw [← e0]
    exact h

/-- C5, witness: the statement applied to side 0 of the repeat detection scenario,
which passes check() and has no short reads. -/
theorem unexplainedFraction_eq_over_total_witness :
    scenario.check = Except.ok () ∧ 0 < scenario.commonCount ∧ scenario.shortCount 0 = 0 ∧
    scenario.unexplainedFraction 0 =
      Double.div (Double.ofNat (scenario.unexplainedCount 0))
        (Double.ofNat (scenario.totalCount 0)) :=
  ⟨by simp [check, checkedSum, SHASTA_ASSERT, scenario, add64, two64, bind, Except.bind,
      pure, Except.pure],
    by simp [scenario], by simp [scenario],
    (unexplainedFraction_eq_over_total scenario 0
      (by simp [check, checkedSum, SHASTA_ASSERT, scenario, add64, two64, bind, Except.bind,
        pure, Except.pure])
      (by simp [scenario]) (by simp [scenario])).1⟩

/-- With a common count that is positive and in range, neither unexplained
fraction is NaN: a divisor that wrapped to zero has a non-zero dividend. -/
theorem unexplainedFraction_not_nan (s : SegmentPairInformation) (hr : s.InRange)
    (hc : 0 < s.commonCount) (i : Fin 2) : (s.unexplainedFraction i).isNan = false := by
  have hden : s.unexplainedDenominator i < two64 := by
    unfold unexplainedDenominator add64
    exact Nat.mod_lt _ (by norm_num [two64])
  unfold unexplainedFraction
  apply Double.div_ofNat_not_nan _ _ (hr.2.2.2.1 i) hden
  by_cases hu : s.unexplainedCount i = 0
  · right
    unfold unexplainedDenominator add64
    rw [hu, Nat.add_zero, Nat.mod_eq_of_lt hr.2.1]
    omega
  · exact Or.inl hu

/-- C9: for every SegmentPairInformation (fields in range) with commonCount > 0,
maximumUnexplainedFraction() equals one of unexplainedFraction(0),
unexplainedFraction(1) and is >= both, so for every threshold t,
maximumUnexplainedFraction() <= t if and only if both unexplainedFraction(0) <= t
and unexplainedFraction(1) <= t. -/
theorem maximumUnexplainedFraction_is_worse (s : SegmentPairInformation)
    (hr : s.InRange) (hc : 0 < s.commonCount) :
    (s.maximumUnexplainedFraction = s.unexplainedFraction 0 ∨
      s.maximumUnexplainedFraction = s.unexplainedFraction 1) ∧
    Double.le (s.unexplainedFraction 0) s.maximumUnexplainedFraction = true ∧
    Double.le (s.unexplainedFraction 1) s.maximumUnexplainedFraction = true ∧
    ∀ t : Double,
      Double.le s.maximumUnexplainedFraction t = true ↔
        (Double.le (s.unexplainedFraction 0) t = true ∧
          Double.le (s.unexplainedFraction 1) t = true) := by
  have h0 := unexplainedFraction_not_nan s hr hc 0
  have h1 := unexplainedFraction_not_nan s hr hc 1
  refine ⟨Double.max_eq_or _ _, (Double.le_max_of_not_nan _ _ h0 h1).1,
    (Double.le_max_of_not_nan _ _ h0 h1).2, ?_⟩
  intro t
  exact Double.max_le_iff_of_not_nan _ _ t h0 h1

/-- C9, witness: the statement applied to the repeat detection scenario. -/
theorem maximumUnexplainedFraction_is_worse_witness :
    scenario.InRange ∧ 0 < scenario.commonCount ∧
    (scenario.maximumUnexplainedFraction = scenario.unexplainedFraction 0 ∨
      scenario.maximumUnexplainedFraction = scenario.unexplainedFraction 1) ∧
    Double.le (scenario.unexplainedFraction 0) scenario.maximumUnexplainedFraction = true ∧
    Double.le (scenario.unexplainedFraction 1) scenario.maximumUnexplainedFraction = true ∧
    ∀ t : Double,
      Double.le scenario.maximumUnexplainedFraction t = true ↔
        (Double.le (scenario.unexplainedFraction 0) t = true ∧
          Double.le (scenario.unexplainedFraction 1) t = true) :=
  ⟨by simp [InRange, scenario, two64, Fin.forall_fin_two], by simp [scenario],
    maximumUnexplainedFraction_is_worse scenario
      (by simp [InRange, scenario, two64, Fin.forall_fin_two]) (by simp [scenario])⟩

/-- C10, counterexample: the in-range pair with commonCount = 1 and
unexplainedCount = {2^64 - 1, 0} has commonCount > 0, yet the divisors of
unexplainedFraction(0) and of jaccard() are zero, and unexplainedFraction(0) is
an infinity. -/
theorem denominators_overflow_counterexample :
    zeroDenominatorPair.InRange ∧ 0 < zeroDenominatorPair.commonCount ∧
    zeroDenominatorPair.unexplainedDenominator 0 = 0 ∧
    zeroDenominatorPair.jaccardDenominator = 0 ∧
    zeroDenominatorPair.unexplainedFraction 0 = Double.inf false := by
  refine ⟨?_, ?_, ?_, ?_, ?_⟩
  · simp [InRange, zeroDenominatorPair, two64, Fin.forall_fin_two]
  · simp [zeroDenominatorPair]
  · simp [unexplainedDenominator, zeroDenominatorPair, add64, two64]
  · simp [jaccardDenominator, zeroDenominatorPair, add64, two64]
  · have e : zeroDenominatorPair.unexplainedFraction 0 =
        Double.div (Double.ofNat (2 ^ 64 - 1)) (Double.ofNat 0) := by
      simp [unexplainedFraction, unexplainedDenominator, zeroDenominatorPair, add64, two64]
    rw [e, Double.ofNat_two64_sub_one, Double.ofNat_zero]
    simp [Double.div]

/-- C10 (amended): for every SegmentPairInformation with commonCount > 0 whose 64 bit
sums do not overflow, the divisors used by unexplainedFraction(0),
unexplainedFraction(1) and jaccard() are non-zero and the three results are finite;
for commonCount = 0 with unexplainedCount = {0,0}, in particular for a default
constructed object, all three divisors are zero and the three results are NaN. -/
theorem denominators_nonzero (s : SegmentPairInformation) (hc : 0 < s.commonCount)
    (hno : s.commonCount + s.unexplainedCount 0 + s.unexplainedCount 1 < two64) :
    (s.unexplainedDenominator 0 ≠ 0 ∧ s.unexplainedDenominator 1 ≠ 0 ∧
      s.jaccardDenominator ≠ 0) ∧
    ((∃ q, s.unexplainedFraction 0 = Double.fin q) ∧
      (∃ q, s.unexplainedFraction 1 = Double.fin q) ∧ (∃ q, s.jaccard = Double.fin q)) ∧
    (∀ t : SegmentPairInformation, t.commonCount = 0 → t.unexplainedCount 0 = 0 →
      t.unexplainedCount 1 = 0 →
      (t.unexplainedDenominator 0 = 0 ∧ t.unexplainedDenominator 1 = 0 ∧
        t.jaccardDenominator = 0) ∧
      t.unexplainedFraction 0 = Double.nan ∧ t.unexplainedFraction 1 = Double.nan ∧
      t.jaccard = Double.nan) ∧
    (defaultConstructed.unexplainedDenominator 0 = 0 ∧
      defaultConstructed.unexplainedDenominator 1 = 0 ∧
      defaultConstructed.jaccardDenominator = 0 ∧
      defaultConstructed.unexplainedFraction 0 = Double.nan ∧
      defaultConstructed.unexplainedFraction 1 = Double.nan ∧
      defaultConstructed.jaccard = Double.nan) := by
  have h0 : s.commonCount + s.unexplainedCount 0 < two64 := by omega
  have h1 : s.commonCount + s.unexplainedCount 1 < two64 := by omega
  have d0 : s.unexplainedDenominator 0 = s.commonCount + s.unexplainedCount 0 := by
    unfold unexplainedDenominator
    exact add64_eq_of_lt h0
  have d1 : s.unexplainedDenominator 1 = s.commonCount + s.unexplainedCount 1 := by
    unfold unexplainedDenominator
    exact add64_eq_of_lt h1
  have dj : s.jaccardDenominator =
      s.commonCount + s.unexplainedCount 0 + s.unexplainedCount 1 := by
    unfold jaccardDenominator
    rw [add64_eq_of_lt h0, add64_eq_of_lt hno]
  have p0 : 0 < s.unexplainedDenominator 0 := by omega
  have p1 : 0 < s.unexplainedDenominator 1 := by omega
  have pj : 0 < s.jaccardDenominator := by omega
  have hnan : Double.div (Double.ofNat 0) (Double.ofNat 0) = Double.nan := by
    rw [Double.ofNat_zero]
    simp [Double.div]
  refine ⟨⟨by omega, by omega, by omega⟩, ⟨?_, ?_, ?_⟩, ?_, ?_⟩
  · exact Exists.intro _ (Double.div_ofNat_of_pos _ _ (by omega) (by omega) p0)
  · exact Exists.intro _ (Double.div_ofNat_of_pos _ _ (by omega) (by omega) p1)
  · exact Exists.intro _ (Double.div_ofNat_of_pos _ _ (by omega) (by omega) pj)
  · intro t hc0 hu0 hu1
    simp [unexplainedFraction, jaccard, unexplainedDenominator, jaccardDenominator, add64,
      hc0, hu0, hu1, hnan]
  · simp [unexplainedFraction, jaccard, unexplainedDenominator, jaccardDenominator, add64,
      defaultConstructed, hnan]

/-- C10, witness: the amended statement applied to the repeat detection scenario. -/
theorem denominators_nonzero_witness :
    0 < scenario.commonCount ∧
    (scenario.unexplainedDenominator 0 ≠ 0 ∧ scenario.unexplainedDenominator 1 ≠ 0 ∧
      scenario.jaccardDenominator ≠ 0) :=
  ⟨by simp [scenario],
    (denominators_nonzero scenario (by simp [scenario]) (by simp [scenario, two64])).1⟩

end SegmentPairInformation

/-! ### Link separation and link coverage -/

theorem toInt64_sub32_of_le (a b : Nat) (ha : a < two32) (hb : b < two32) (h : b ≤ a) :
    toInt64 (sub32 a b) = (a : Int) - (b : Int) := by
  unfold toInt64 wrapInt64 sub32
  unfold two32 at *
  omega

theorem toInt64_sub64_sub64 (len pos : Nat) (hlen : len < 2 ^ 63) (hpos : pos < two32) :
    toInt64 (sub64 (sub64 len 1) pos) = (len : Int) - 1 - (pos : Int) := by
  unfold toInt64 wrapInt64 sub64 two64
  unfold two32 at hpos
  omega

theorem toInt64_of_lt (n : Nat) (h : n < two32) : toInt64 n = (n : Int) := by
  unfold toInt64 wrapInt64
  unfold two32 at h
  omega

theorem subInt64_of_fits (a b : Int) (h1 : -(2 ^ 63 : Int) ≤ a - b) (h2 : a - b < 2 ^ 63) :
    subInt64 a b = a - b := by
  unfold subInt64 wrapInt64
  omega

theorem transitionSeparation_eq_exact (pathLength0 : Nat) (t : Transition)
    (h0 : (t 0).InRange) (h1 : (t 1).InRange)
    (hord : (t 0).ordinals 1 ≤ (t 1).ordinals 0)
    (hlen : pathLength0 < 2 ^ 63)
    (hfit : -(2 ^ 63 : Int) ≤ exactSeparation pathLength0 t) :
    transitionSeparation pathLength0 t = exactSeparation pathLength0 t := by
  obtain ⟨-, hp0, ho0⟩ := h0
  obtain ⟨-, hp1, ho1⟩ := h1
  have ha := ho0 1
  have hb := ho1 0
  unfold exactSeparation at hfit
  unfold transitionSeparation exactSeparation
  simp only
  rw [toInt64_sub32_of_le _ _ hb ha hord, toInt64_sub64_sub64 _ _ hlen hp0,
    toInt64_of_lt _ hp1]
  unfold two32 at *
  have hinner : subInt64 (((t 1).ordinals 0 : Int) - ((t 0).ordinals 1 : Int))
      ((pathLength0 : Int) - 1 - ((t 0).position : Int)) =
      ((t 1).ordinals 0 : Int) - ((t 0).ordinals 1 : Int) -
        ((pathLength0 : Int) - 1 - ((t 0).position : Int)) :=
    subInt64_of_fits _ _ (by omega) (by omega)
  rw [hinner]
  exact subInt64_of_fits _ _ (by omega) (by omega)

theorem linkSeparationLoop_error_iff (pathLength0 : Nat) (ts : Transitions) (acc : Double) :
    linkSeparationLoop pathLength0 ts acc = Except.error Failure.assertionFailed ↔
      ∃ p ∈ ts, (p.2 1).ordinals 0 < (p.2 0).ordinals 1 := by
  induction ts generalizing acc with
  | nil => simp [linkSeparationLoop]
  | cons p rest ih =>
    by_cases hp : (p.2 0).ordinals 1 ≤ (p.2 1).ordinals 0
    · simp only [linkSeparationLoop, SHASTA_ASSERT, ge_iff_le, hp, decide_True, if_true]
      rw [ih]
      simp only [List.mem_cons, exists_eq_or_imp]
      constructor
      · intro h
        exact Or.inr h
      · rintro (h | h)
        · omega
        · exact h
    · simp only [linkSeparationLoop, SHASTA_ASSERT, ge_iff_le, hp, decide_False]
      simp only [List.mem_cons, exists_eq_or_imp]
      constructor
      · intro _
        exact Or.inl (by omega)
      · intro _
        rfl

theorem Double.add_ofInt_of_le (a z : Int) (h : |a| + |z| ≤ 2 ^ 53) :
    Double.add (Double.fin (a : ℚ)) (Double.ofInt z) = Double.fin ((a + z : Int) : ℚ) := by
  have ha0 := abs_nonneg a
  have hz : |z| ≤ 2 ^ 53 := by omega
  have hs : |a + z| ≤ 2 ^ 53 := le_trans (abs_add a z) h
  rw [Double.ofInt_of_le z hz]
  have e := Double.ofInt_of_le (a + z) hs
  unfold Double.ofInt at e
  rw [Int.cast_add] at e
  show Double.ofRat ((a : ℚ) + (z : ℚ)) = Double.fin ((a + z : Int) : ℚ)
  rw [Int.cast_add]
  exact e

theorem abs_sum_le_sum_abs (l : List Int) : |l.sum| ≤ (l.map (fun z => |z|)).sum := by
  induction l with
  | nil => simp
  | cons x rest ih =>
    rw [List.sum_cons, List.map_cons, List.sum_cons]
    exact le_trans (abs_add x rest.sum) (by omega)

theorem sum_abs_nonneg (l : List Int) : 0 ≤ (l.map (fun z => |z|)).sum := by
  apply List.sum_nonneg
  intro x hx
  rw [List.mem_map] at hx
  obtain ⟨z, -, rfl⟩ := hx
  exact abs_nonneg z

/-- When the magnitudes of the accumulator and of the separations add up to at most
`2^53`, every conversion and every partial sum of the loop is exact. -/
theorem linkSeparationLoop_exact (pathLength0 : Nat) (ts : Transitions) (acc : Int)
    (hord : ∀ p ∈ ts, (p.2 0).ordinals 1 ≤ (p.2 1).ordinals 0)
    (hsum : |acc| + ((ts.map (fun p => transitionSeparation pathLength0 p.2)).map
      (fun z => |z|)).sum ≤ 2 ^ 53) :
    linkSeparationLoop pathLength0 ts (Double.fin (acc : ℚ)) =
      Except.ok (Double.fin
        ((acc + (ts.map (fun p => transitionSeparation pathLength0 p.2)).sum : Int) : ℚ)) := by
  induction ts generalizing acc with
  | nil => simp [linkSeparationLoop]
  | cons p rest ih =>
    have hp : (p.2 0).ordinals 1 ≤ (p.2 1).ordinals 0 := hord p (List.mem_cons_self _ _)
    have hrest : ∀ q ∈ rest, (q.2 0).ordinals 1 ≤ (q.2 1).ordinals 0 :=
      fun q hq => hord q (List.mem_cons_of_mem _ hq)
    have ha : SHASTA_ASSERT (decide ((p.2 1).ordinals 0 ≥ (p.2 0).ordinals 1)) =
        Except.ok () := by
      simp [SHASTA_ASSERT, hp]
    rw [List.map_cons, List.map_cons, List.sum_cons] at hsum
    have hnn := sum_abs_nonneg (rest.map (fun p => transitionSeparation pathLength0 p.2))
    have htri := abs_add acc (transitionSeparation pathLength0 p.2)
    rw [linkSeparationLoop, ha]
    show linkSeparationLoop pathLength0 rest
        (Double.add (Double.fin (acc : ℚ))
          (Double.ofInt (transitionSeparation pathLength0 p.2))) = _
    rw [Double.add_ofInt_of_le acc _ (by omega), ih _ hrest (by omega), List.map_cons,
      List.sum_cons, add_assoc]

/-- The value of linkSeparation when every exit ordinal is at most the entry ordinal,
and the magnitudes of the exact separations add up to at most `2^53`, as does the
number of transitions: the rounded arithmetic mean of the exact separations. -/
theorem linkSeparation_of_small (ts : Transitions) (pathLength0 : Nat)
    (hne : ts ≠ []) (hr : Transitions.InRange ts)
    (hord : ∀ p ∈ ts, (p.2 0).ordinals 1 ≤ (p.2 1).ordinals 0)
    (hlen : pathLength0 < 2 ^ 63)
    (hsum : (ts.map (fun p => |exactSeparation pathLength0 p.2|)).sum ≤ 2 ^ 53)
    (hcount : ts.length ≤ 2 ^ 53) :
    linkSeparation ts pathLength0 =
      Except.ok (Double.fin (roundToBinary64 (exactMeanSeparation ts pathLength0))) ∧
    |exactMeanSeparation ts pathLength0| ≤ 2 ^ 64 := by
  have hsum2 : ((ts.map (fun p => exactSeparation pathLength0 p.2)).map
      (fun z => |z|)).sum ≤ 2 ^ 53 := by
    rw [List.map_map]
    exact hsum
  have hfit : ∀ p ∈ ts, -(2 ^ 63 : Int) ≤ exactSeparation pathLength0 p.2 := by
    intro p hp
    have hmem : |exactSeparation pathLength0 p.2| ∈
        (ts.map (fun p => |exactSeparation pathLength0 p.2|)) :=
      List.mem_map.mpr ⟨p, hp, rfl⟩
    have hle := List.single_le_sum (by
      intro x hx
      rw [List.mem_map] at hx
      obtain ⟨z, -, rfl⟩ := hx
      exact abs_nonneg _) _ hmem
    have h2 := neg_abs_le (exactSeparation pathLength0 p.2)
    omega
  have hmap : ts.map (fun p => transitionSeparation pathLength0 p.2) =
      ts.map (fun p => exactSeparation pathLength0 p.2) := by
    apply List.map_congr_left
    intro p hp
    exact transitionSeparation_eq_exact pathLength0 p.2 (hr p hp 0) (hr p hp 1)
      (hord p hp) hlen (hfit p hp)
  have hpos : 0 < ts.length := List.length_pos.mpr hne
  have hS := abs_sum_le_sum_abs (ts.map (fun p => exactSeparation pathLength0 p.2))
  have hSq : |(((ts.map (fun p => exactSeparation pathLength0 p.2)).sum : Int) : ℚ)| ≤
      2 ^ 53 := by
    rw [← Int.cast_abs]
    have h : |(ts.map (fun p => exactSeparation pathLength0 p.2)).sum| ≤ (2 ^ 53 : Int) := by
      omega
    exact_mod_cast h
  have hn1 : (1 : ℚ) ≤ (ts.length : ℚ) := by exact_mod_cast hpos
  have hn0 : (0 : ℚ) < (ts.length : ℚ) := lt_of_lt_of_le one_pos hn1
  have hmean : |exactMeanSeparation ts pathLength0| ≤ 2 ^ 64 := by
    unfold exactMeanSeparation
    rw [abs_div, abs_of_pos hn0, div_le_iff₀ hn0]
    calc |(((ts.map (fun p => exactSeparation pathLength0 p.2)).sum : Int) : ℚ)|
        ≤ 2 ^ 53 := hSq
      _ ≤ 2 ^ 64 * 1 := by norm_num
      _ ≤ 2 ^ 64 * (ts.length : ℚ) := by
          apply mul_le_mul_of_nonneg_left hn1
          positivity
  refine ⟨?_, hmean⟩
  have hloop := linkSeparationLoop_exact pathLength0 ts 0 hord (by
    rw [hmap, abs_zero, zero_add]
    exact hsum2)
  rw [hmap, zero_add, Int.cast_zero] at hloop
  unfold linkSeparation
  rw [hloop, Double.ofNat_of_le _ hcount]
  simp only [Double.div, hn0.ne.symm, if_false]
  have hm2 := Double.ofRat_of_abs_le _ hmean
  unfold exactMeanSeparation at hm2 ⊢
  rw [hm2]

theorem thirdsTransitions_linkSeparation :
    linkSeparation thirdsTransitions 2 =
      Except.ok (Double.fin (6004799503160661 / 2 ^ 54)) ∧
    exactMeanSeparation thirdsTransitions 2 = 1 / 3 := by
  have hm : exactMeanSeparation thirdsTransitions 2 = 1 / 3 := by
    simp [exactMeanSeparation, exactSeparation, thirdsTransitions]
  have h := (linkSeparation_of_small thirdsTransitions 2 (by simp [thirdsTransitions])
    (by simp [Transitions.InRange, PseudoPathEntry.InRange, thirdsTransitions, two32, two64,
      Fin.forall_fin_two])
    (by simp [thirdsTransitions]) (by norm_num)
    (by simp [exactSeparation, thirdsTransitions])
    (by simp [thirdsTransitions])).1
  rw [hm] at h
  have hv := roundToBinary64_eq_of (1 / 3) (-2) 6004799503160661 (by norm_num)
    (by norm_num [abs_of_pos]) (by norm_num [abs_of_pos]) (by norm_num [abs_lt])
  have hv2 : ((6004799503160661 : ℤ) : ℚ) * (2 : ℚ) ^ ((-2 : ℤ) - 52) =
      6004799503160661 / 2 ^ 54 := by norm_num
  rw [hv2] at hv
  rw [hv] at h
  exact ⟨h, hm⟩

theorem Double.ofInt_neg_two54_sub_one :
    Double.ofInt (-(2 ^ 54 + 1)) = Double.fin (-(2 ^ 54)) := by
  have hv := roundToBinary64_eq_of (((-(2 ^ 54 + 1) : ℤ) : ℚ)) 54 (-(2 ^ 52)) (by norm_num)
    (by norm_num [abs_of_neg]) (by norm_num [abs_of_neg]) (by norm_num [abs_lt])
  have hv2 : (((-(2 ^ 52) : ℤ)) : ℚ) * (2 : ℚ) ^ ((54 : ℤ) - 52) = -(2 ^ 54) := by norm_num
  rw [hv2] at hv
  unfold Double.ofInt Double.ofRat
  rw [hv]
  norm_num

theorem longSegmentTransitions_linkSeparation :
    linkSeparation longSegmentTransitions (2 ^ 54 + 2) =
      Except.ok (Double.fin (-(2 ^ 54))) ∧
    exactMeanSeparation longSegmentTransitions (2 ^ 54 + 2) = -(2 ^ 54 + 1) := by
  have hm : exactMeanSeparation longSegmentTransitions (2 ^ 54 + 2) = -(2 ^ 54 + 1) := by
    simp [exactMeanSeparation, exactSeparation, longSegmentTransitions]
    norm_num
  have hsep : transitionSeparation (2 ^ 54 + 2)
      ![⟨7, 0, ![3, 4]⟩, ⟨8, 0, ![4, 5]⟩] = -(2 ^ 54 + 1) := by
    simp [transitionSeparation, subInt64, toInt64, wrapInt64, sub32, sub64, two32, two64]
  have hb : IsBinary64 (-(2 : ℚ) ^ 54) := isBinary64_neg (isBinary64_two_pow 54)
  have hadd : Double.add (Double.fin 0) (Double.fin (-(2 ^ 54))) = Double.fin (-(2 ^ 54)) := by
    show Double.ofRat (0 + -(2 ^ 54)) = Double.fin (-(2 ^ 54))
    rw [zero_add]
    exact Double.ofRat_of_isBinary64 _ hb (by norm_num [abs_of_neg])
  have hdiv : Double.div (Double.fin (-(2 ^ 54))) (Double.fin 1) = Double.fin (-(2 ^ 54)) := by
    simp only [Double.div, one_ne_zero, if_false, div_one]
    exact Double.ofRat_of_isBinary64 _ hb (by norm_num [abs_of_neg])
  refine ⟨?_, hm⟩
  have hone : Double.ofNat 1 = Double.fin 1 := by
    have h := Double.ofNat_of_le 1 (by norm_num)
    simpa using h
  have hloop : linkSeparationLoop (2 ^ 54 + 2) longSegmentTransitions (Double.fin 0) =
      Except.ok (Double.fin (-(2 ^ 54))) := by
    unfold longSegmentTransitions
    rw [linkSeparationLoop]
    simp only [SHASTA_ASSERT, Matrix.cons_val_zero, Matrix.cons_val_one, Matrix.head_cons,
      ge_iff_le, le_refl, decide_True, if_true]
    rw [hsep, Double.ofInt_neg_two54_sub_one, hadd, linkSeparationLoop]
  unfold linkSeparation
  rw [hloop]
  show Except.ok (Double.div (Double.fin (-(2 ^ 54))) (Double.ofNat 1)) = _
  rw [hone, hdiv]

/-- C6, counterexample: two collections where the result is not the arithmetic mean
of the exact separations.  Three in-range transitions with exact separations 1, 0
and 0 (path length 2) have the mean 1/3, and linkSeparation returns the double
6004799503160661 / 2^54; no double equals 1/3.  One in-range transition with
pathLength0 = 2^54 + 2 < 2^63 has the exact separation -(2^54 + 1), and
linkSeparation returns -2^54, because the conversion of the integer to double
rounds.  No signed or unsigned overflow occurs in either. -/
theorem linkSeparation_exact_mean_counterexample :
    (thirdsTransitions ≠ [] ∧ Transitions.InRange thirdsTransitions ∧
      (∀ p ∈ thirdsTransitions, (p.2 0).ordinals 1 ≤ (p.2 1).ordinals 0) ∧
      (2 : ℕ) < 2 ^ 63 ∧
      exactMeanSeparation thirdsTransitions 2 = 1 / 3 ∧
      linkSeparation thirdsTransitions 2 =
        Except.ok (Double.fin (6004799503160661 / 2 ^ 54)) ∧
      linkSeparation thirdsTransitions 2 ≠
        Except.ok (Double.fin (exactMeanSeparation thirdsTransitions 2))) ∧
    (longSegmentTransitions ≠ [] ∧ Transitions.InRange longSegmentTransitions ∧
      (∀ p ∈ longSegmentTransitions, (p.2 0).ordinals 1 ≤ (p.2 1).ordinals 0) ∧
      (2 ^ 54 + 2 : ℕ) < 2 ^ 63 ∧
      exactMeanSeparation longSegmentTransitions (2 ^ 54 + 2) = -(2 ^ 54 + 1) ∧
      linkSeparation longSegmentTransitions (2 ^ 54 + 2) =
        Except.ok (Double.fin (-(2 ^ 54))) ∧
      linkSeparation longSegmentTransitions (2 ^ 54 + 2) ≠
        Except.ok (Double.fin (exactMeanSeparation longSegmentTransitions (2 ^ 54 + 2)))) := by
  obtain ⟨h1, m1⟩ := thirdsTransitions_linkSeparation
  obtain ⟨h2, m2⟩ := longSegmentTransitions_linkSeparation
  refine ⟨⟨by simp [thirdsTransitions], ?_, ?_, by norm_num, m1, h1, ?_⟩,
    ⟨by simp [longSegmentTransitions], ?_, ?_, by norm_num, m2, h2, ?_⟩⟩
  · simp [Transitions.InRange, PseudoPathEntry.InRange, thirdsTransitions, two32, two64,
      Fin.forall_fin_two]
  · simp [thirdsTransitions]
  · rw [h1, m1]
    intro h
    injection h with h
    injection h with h
    norm_num at h
  · simp [Transitions.InRange, PseudoPathEntry.InRange, longSegmentTransitions, two32, two64,
      Fin.forall_fin_two]
  · simp [longSegmentTransitions]
  · rw [h2, m2]
    intro h
    injection h with h
    injection h with h
    norm_num at h

/-- C6 (amended): for every non-empty collection of in-range transitions in which
each transition satisfies entry1.ordinals[0] >= entry0.ordinals[1], and every
pathLength0 < 2^63, such that the absolute values of the exact signed integers
(entry1.ordinals[0] - entry0.ordinals[1]) - (pathLength0 - 1 - entry0.position)
- entry1.position of the transitions add up to at most 2^53 and there are at most
2^53 transitions (so that every conversion and every partial sum is exact),
linkSeparation returns the double nearest to the arithmetic mean of these exact
integers over the transitions: it is the rounded mean, a binary64 number such that
no binary64 number is closer to the mean, and the mean itself whenever that is a
binary64 number.  This includes the case where entry0.position >= pathLength0 makes
the unsigned intermediate wrap. -/
theorem linkSeparation_eq_rounded_mean (ts : Transitions) (pathLength0 : Nat)
    (hne : ts ≠ []) (hr : Transitions.InRange ts)
    (hord : ∀ p ∈ ts, (p.2 0).ordinals 1 ≤ (p.2 1).ordinals 0)
    (hlen : pathLength0 < 2 ^ 63)
    (hsum : (ts.map (fun p => |exactSeparation pathLength0 p.2|)).sum ≤ 2 ^ 53)
    (hcount : ts.length ≤ 2 ^ 53) :
    linkSeparation ts pathLength0 =
      Except.ok (Double.ofRat (exactMeanSeparation ts pathLength0)) ∧
    ∃ r, linkSeparation ts pathLength0 = Except.ok (Double.fin r) ∧ IsBinary64 r ∧
      (∀ y, IsBinary64 y →
        |exactMeanSeparation ts pathLength0 - r| ≤ |exactMeanSeparation ts pathLength0 - y|) ∧
      (IsBinary64 (exactMeanSeparation ts pathLength0) →
        r = exactMeanSeparation ts pathLength0) := by
  obtain ⟨h, hmean⟩ := linkSeparation_of_small ts pathLength0 hne hr hord hlen hsum hcount
  refine ⟨?_, _, h, isBinary64_roundToBinary64 _, roundToBinary64_nearest _,
    roundToBinary64_eq_self _⟩
  rw [h, Double.ofRat_of_abs_le _ hmean]

/-- C6, witness: the amended statement applied to two transitions leaving a segment
of path length 3, the first of which exits at position 5 >= 3; the exact separations
are 10 and -1 and the mean is 9/2. -/
theorem linkSeparation_eq_rounded_mean_witness :
    linkSeparation sampleTransitions 3 =
      Except.ok (Double.ofRat (exactMeanSeparation sampleTransitions 3)) ∧
    exactMeanSeparation sampleTransitions 3 = 9 / 2 :=
  ⟨(linkSeparation_eq_rounded_mean sampleTransitions 3
      (by simp [sampleTransitions])
      (by simp [Transitions.InRange, PseudoPathEntry.InRange, sampleTransitions, two32, two64,
        Fin.forall_fin_two])
      (by simp [sampleTransitions])
      (by norm_num)
      (by simp [exactSeparation, sampleTransitions])
      (by simp [sampleTransitions])).1,
    by simp [exactMeanSeparation, exactSeparation, sampleTransitions]⟩

/-- C7: for every collection of in-range transitions, linkSeparation aborts with an
assertion failure if and only if some transition has entering entry ordinals[0] <
exiting entry ordinals[1]; when every transition has enteringEntry.ordinals[0] >=
exitingEntry.ordinals[1], linkSeparation returns a value and the unsigned 32 bit
difference of the two ordinals equals their exact difference (it does not wrap). -/
theorem linkSeparation_aborts_iff (ts : Transitions) (pathLength0 : Nat)
    (hr : Transitions.InRange ts) :
    (linkSeparation ts pathLength0 = Except.error Failure.assertionFailed ↔
      ∃ p ∈ ts, (p.2 1).ordinals 0 < (p.2 0).ordinals 1) ∧
    ((∀ p ∈ ts, (p.2 0).ordinals 1 ≤ (p.2 1).ordinals 0) →
      (∃ d, linkSeparation ts pathLength0 = Except.ok d) ∧
      ∀ p ∈ ts, ((sub32 ((p.2 1).ordinals 0) ((p.2 0).ordinals 1) : Nat) : Int) =
        ((p.2 1).ordinals 0 : Int) - ((p.2 0).ordinals 1 : Int)) := by
  constructor
  · rw [← linkSeparationLoop_error_iff pathLength0 ts (Double.fin 0)]
    unfold linkSeparation
    cases h : linkSeparationLoop pathLength0 ts (Double.fin 0) with
    | error e => cases e; simp
    | ok d => simp
  · intro hord
    constructor
    · unfold linkSeparation
      cases h : linkSeparationLoop pathLength0 ts (Double.fin 0) with
      | error e =>
        cases e
        obtain ⟨p, hp, hlt⟩ := (linkSeparationLoop_error_iff pathLength0 ts (Double.fin 0)).mp h
        have := hord p hp
        omega
      | ok d => exact Exists.intro _ rfl
    · intro p hp
      have h0 := (hr p hp 0).2.2 1
      have h1 := (hr p hp 1).2.2 0
      have ho := hord p hp
      unfold sub32
      unfold two32 at *
      omega

/-- C7, witness: the statement applied to the sample transitions and path length 3. -/
theorem linkSeparation_aborts_iff_witness :
    (linkSeparation sampleTransitions 3 = Except.error Failure.assertionFailed ↔
      ∃ p ∈ sampleTransitions, (p.2 1).ordinals 0 < (p.2 0).ordinals 1) ∧
    ((∀ p ∈ sampleTransitions, (p.2 0).ordinals 1 ≤ (p.2 1).ordinals 0) →
      (∃ d, linkSeparation sampleTransitions 3 = Except.ok d) ∧
      ∀ p ∈ sampleTransitions,
        ((sub32 ((p.2 1).ordinals 0) ((p.2 0).ordinals 1) : Nat) : Int) =
          ((p.2 1).ordinals 0 : Int) - ((p.2 0).ordinals 1 : Int)) :=
  linkSeparation_aborts_iff sampleTransitions 3
    (by simp [Transitions.InRange, PseudoPathEntry.InRange, sampleTransitions, two32, two64,
      Fin.forall_fin_two])

/-- C8: for every link id of the transitions table, linkCoverage(linkId) is the
number of (oriented read, Transition) pairs stored for that link. -/
theorem linkCoverage_eq_length (g : AssemblyGraph) (linkId : Nat)
    (h : linkId < g.transitions.length) :
    g.linkCoverage linkId = some (g.transitions.get ⟨linkId, h⟩).length := by
  unfold AssemblyGraph.linkCoverage VectorOfVectors.size
  rw [List.get?_eq_get h]
  rfl

/-- C8, witness: the first link of the sample graph has coverage 2. -/
theorem linkCoverage_eq_length_witness :
    sampleGraph.linkCoverage 0 = some 2 :=
  linkCoverage_eq_length sampleGraph 0 (by simp [sampleGraph])

/-! ### Ordering of pseudopath entries -/

/-- C11: PseudoPathEntry::operator< orders entries by the first ordinal only: a < b
if and only if a.ordinals[0] < b.ordinals[0], whatever segmentId, position and
ordinals[1] are; the relation is irreflexive and transitive, and of two entries
with different first ordinals exactly one is less than the other. -/
theorem pseudoPathEntry_lt_by_first_ordinal :
    (∀ a b : PseudoPathEntry, a.lt b = true ↔ a.ordinals 0 < b.ordinals 0) ∧
    (∀ a b c d : PseudoPathEntry, c.ordinals 0 = a.ordinals 0 →
      d.ordinals 0 = b.ordinals 0 → c.lt d = a.lt b) ∧
    (∀ a : PseudoPathEntry, a.lt a = false) ∧
    (∀ a b c : PseudoPathEntry, a.lt b = true → b.lt c = true → a.lt c = true) ∧
    (∀ a b : PseudoPathEntry, a.ordinals 0 ≠ b.ordinals 0 →
      (a.lt b = true ∧ b.lt a = false) ∨ (a.lt b = false ∧ b.lt a = true)) := by
  refine ⟨?_, ?_, ?_, ?_, ?_⟩
  · intro a b
    simp [PseudoPathEntry.lt]
  · intro a b c d hc hd
    simp [PseudoPathEntry.lt, hc, hd]
  · intro a
    simp [PseudoPathEntry.lt]
  · intro a b c hab hbc
    simp only [PseudoPathEntry.lt, decide_eq_true_eq] at *
    omega
  · intro a b hne
    simp only [PseudoPathEntry.lt, decide_eq_true_eq, decide_eq_false_iff_not]
    omega

/-! ### File name helpers -/

namespace filesystem

theorem getD_append_cons_length (pre suf : List Char) (c d : Char) :
    (pre ++ c :: suf).getD pre.length d = c := by
  rw [List.getD_eq_getElem?_getD, List.getElem?_append_right (le_refl _)]
  simp

theorem getD_append_cons_succ (pre suf : List Char) (c d : Char) (j : Nat)
    (hj : j < suf.length) :
    (pre ++ c :: suf).getD (pre.length + 1 + j) d ∈ suf := by
  have h : (pre ++ c :: suf).getD (pre.length + 1 + j) d = suf[j] := by
    rw [List.getD_eq_getElem?_getD, List.getElem?_append_right (by omega)]
    have e : pre.length + 1 + j - pre.length = j + 1 := by omega
    rw [e]
    simp [hj]
  rw [h]
  exact List.getElem_mem _

theorem extensionLoop_skip (path : List Char) (k i : Nat) (hk : k ≤ i)
    (h : ∀ m, k < m → m ≤ i →
      path.getD m (Char.ofNat 0) ≠ '/' ∧ path.getD m (Char.ofNat 0) ≠ '.') :
    extensionLoop path i = extensionLoop path k := by
  induction i with
  | zero =>
    have : k = 0 := by omega
    rw [this]
  | succ j ih =>
    by_cases hkj : k = j + 1
    · rw [hkj]
    · have hc := h (j + 1) (by omega) (by omega)
      rw [extensionLoop]
      simp only [hc.1, hc.2, if_false]
      exact ih (by omega) (fun m hm1 hm2 => h m hm1 (by omega))

theorem fileNameLoop_skip (path : List Char) (k i : Nat) (hk : k ≤ i)
    (h : ∀ m, k < m → m ≤ i →
      path.getD m (Char.ofNat 0) ≠ '/' ∧ path.getD m (Char.ofNat 0) ≠ '.') :
    fileNameLoop path i = fileNameLoop path k := by
  induction i with
  | zero =>
    have : k = 0 := by omega
    rw [this]
  | succ j ih =>
    by_cases hkj : k = j + 1
    · rw [hkj]
    · have hc := h (j + 1) (by omega) (by omega)
      rw [fileNameLoop]
      simp only [hc.1, hc.2, if_false]
      exact ih (by omega) (fun m hm1 hm2 => h m hm1 (by omega))

theorem scan_bounds (pre suf : List Char) (c : Char)
    (hsuf : ∀ x ∈ suf, x ≠ '/' ∧ x ≠ '.') :
    ∀ m, pre.length < m → m ≤ pre.length + suf.length →
      (pre ++ c :: suf).getD m (Char.ofNat 0) ≠ '/' ∧
      (pre ++ c :: suf).getD m (Char.ofNat 0) ≠ '.' := by
  intro m hm1 hm2
  have e : m = pre.length + 1 + (m - pre.length - 1) := by omega
  rw [e]
  exact hsuf _ (getD_append_cons_succ pre suf c _ _ (by omega))

theorem extension_append_dot (pre ext : List Char)
    (hext : ∀ x ∈ ext, x ≠ '/' ∧ x ≠ '.') :
    extension (pre ++ '.' :: ext) = Except.ok ext := by
  unfold extension
  have hne : (pre ++ '.' :: ext).isEmpty = false := by
    cases pre <;> rfl
  rw [hne]
  simp only [Bool.false_eq_true, if_false, List.length_append, List.length_cons]
  have e : pre.length + (ext.length + 1) - 1 = pre.length + ext.length := by omega
  rw [e, extensionLoop_skip _ pre.length _ (by omega) (scan_bounds pre ext '.' hext),
    extensionLoop.eq_def]
  simp only [getD_append_cons_length]
  simp

theorem fileName_append_dot (pre ext : List Char)
    (hext : ∀ x ∈ ext, x ≠ '/' ∧ x ≠ '.') :
    fileName (pre ++ '.' :: ext) = Except.ok pre := by
  unfold fileName
  have hne : (pre ++ '.' :: ext).isEmpty = false := by
    cases pre <;> rfl
  rw [hne]
  simp only [Bool.false_eq_true, if_false, List.length_append, List.length_cons]
  have e : pre.length + (ext.length + 1) - 1 = pre.length + ext.length := by omega
  rw [e, fileNameLoop_skip _ pre.length _ (by omega) (scan_bounds pre ext '.' hext),
    fileNameLoop.eq_def]
  simp only [getD_append_cons_length]
  simp

theorem extension_append_slash (pre suf : List Char)
    (hsuf : ∀ x ∈ suf, x ≠ '/' ∧ x ≠ '.') :
    extension (pre ++ '/' :: suf) = Except.error RuntimeError.cannotExtract := by
  unfold extension
  have hne : (pre ++ '/' :: suf).isEmpty = false := by
    cases pre <;> rfl
  rw [hne]
  simp only [Bool.false_eq_true, if_false, List.length_append, List.length_cons]
  have e : pre.length + (suf.length + 1) - 1 = pre.length + suf.length := by omega
  rw [e, extensionLoop_skip _ pre.length _ (by omega) (scan_bounds pre suf '/' hsuf),
    extensionLoop.eq_def]
  simp only [getD_append_cons_length]
  simp

theorem fileName_append_slash (pre suf : List Char)
    (hsuf : ∀ x ∈ suf, x ≠ '/' ∧ x ≠ '.') :
    fileName (pre ++ '/' :: suf) = Except.error RuntimeError.cannotExtract := by
  unfold fileName
  have hne : (pre ++ '/' :: suf).isEmpty = false := by
    cases pre <;> rfl
  rw [hne]
  simp only [Bool.false_eq_true, if_false, List.length_append, List.length_cons]
  have e : pre.length + (suf.length + 1) - 1 = pre.length + suf.length := by omega
  rw [e, fileNameLoop_skip _ pre.length _ (by omega) (scan_bounds pre suf '/' hsuf),
    fileNameLoop.eq_def]
  simp only [getD_append_cons_length]
  simp

theorem extension_plain (c : Char) (suf : List Char) (hc : c ≠ '/' ∧ c ≠ '.')
    (hsuf : ∀ x ∈ suf, x ≠ '/' ∧ x ≠ '.') :
    extension (c :: suf) = Except.error RuntimeError.cannotExtract := by
  unfold extension
  simp only [List.isEmpty_cons, Bool.false_eq_true, if_false, List.length_cons]
  have hskip := extensionLoop_skip (c :: suf) 0 suf.length (Nat.zero_le _)
    (by simpa using scan_bounds [] suf c hsuf)
  rw [Nat.add_sub_cancel, hskip, extensionLoop.eq_def]
  simp [hc.1, hc.2]

theorem fileName_plain (c : Char) (suf : List Char) (hc : c ≠ '/' ∧ c ≠ '.')
    (hsuf : ∀ x ∈ suf, x ≠ '/' ∧ x ≠ '.') :
    fileName (c :: suf) = Except.error RuntimeError.cannotExtract := by
  unfold fileName
  simp only [List.isEmpty_cons, Bool.false_eq_true, if_false, List.length_cons]
  have hskip := fileNameLoop_skip (c :: suf) 0 suf.length (Nat.zero_le _)
    (by simpa using scan_bounds [] suf c hsuf)
  rw [Nat.add_sub_cancel, hskip, fileNameLoop.eq_def]
  simp [hc.1, hc.2]

theorem path_shape (l : List Char) :
    l = [] ∨ (∃ c suf, l = c :: suf ∧ (c ≠ '/' ∧ c ≠ '.') ∧ ∀ x ∈ suf, x ≠ '/' ∧ x ≠ '.') ∨
    ∃ pre c suf, l = pre ++ c :: suf ∧ (c = '/' ∨ c = '.') ∧
      ∀ x ∈ suf, x ≠ '/' ∧ x ≠ '.' := by
  induction l with
  | nil => exact Or.inl rfl
  | cons a t ih =>
    right
    rcases ih with h | ⟨c, suf, h, hc, hsuf⟩ | ⟨pre, c, suf, h, hc, hsuf⟩
    · by_cases ha : a = '/' ∨ a = '.'
      · exact Or.inr ⟨[], a, [], by simp [h], ha, by simp⟩
      · exact Or.inl ⟨a, [], by simp [h], by tauto, by simp⟩
    · by_cases ha : a = '/' ∨ a = '.'
      · refine Or.inr ⟨[], a, t, by simp, ha, ?_⟩
        intro x hx
        rw [h] at hx
        rcases List.mem_cons.mp hx with hx | hx
        · rw [hx]; exact hc
        · exact hsuf x hx
      · refine Or.inl ⟨a, t, rfl, by tauto, ?_⟩
        intro x hx
        rw [h] at hx
        rcases List.mem_cons.mp hx with hx | hx
        · rw [hx]; exact hc
        · exact hsuf x hx
    · exact Or.inr ⟨a :: pre, c, suf, by simp [h], hc, hsuf⟩

theorem afterLastSlash_of_no_slash (l : List Char) (h : ∀ x ∈ l, x ≠ '/') :
    afterLastSlash l = l := by
  unfold afterLastSlash
  have : l.reverse.takeWhile (fun c => decide (c ≠ '/')) = l.reverse := by
    rw [List.takeWhile_eq_self_iff]
    intro x hx
    simpa using h x (List.mem_reverse.mp hx)
  rw [this, List.reverse_reverse]

theorem afterLastSlash_append_slash (pre suf : List Char) (h : ∀ x ∈ suf, x ≠ '/') :
    afterLastSlash (pre ++ '/' :: suf) = suf := by
  unfold afterLastSlash
  have hr : (pre ++ '/' :: suf).reverse = suf.reverse ++ '/' :: pre.reverse := by simp
  rw [hr, List.takeWhile_append_of_pos]
  · simp
  · intro x hx
    simpa using h x (List.mem_reverse.mp hx)

theorem dot_mem_afterLastSlash_append_dot (pre suf : List Char) (h : ∀ x ∈ suf, x ≠ '/') :
    '.' ∈ afterLastSlash (pre ++ '.' :: suf) := by
  unfold afterLastSlash
  have hr : (pre ++ '.' :: suf).reverse = suf.reverse ++ '.' :: pre.reverse := by simp
  rw [hr, List.takeWhile_append_of_pos]
  · simp
  · intro x hx
    simpa using h x (List.mem_reverse.mp hx)

theorem extension_fileName_cases (path : List Char) :
    (throws (extension path) ∧ throws (fileName path) ∧
      (path = [] ∨ '.' ∉ afterLastSlash path)) ∨
    (∃ pre ext, path = pre ++ '.' :: ext ∧ (∀ x ∈ ext, x ≠ '/' ∧ x ≠ '.') ∧
      extension path = Except.ok ext ∧ fileName path = Except.ok pre ∧
      path ≠ [] ∧ '.' ∈ afterLastSlash path) := by
  rcases path_shape path with h | ⟨c, suf, h, hc, hsuf⟩ | ⟨pre, c, suf, h, hc, hsuf⟩
  · left
    subst h
    exact ⟨⟨_, rfl⟩, ⟨_, rfl⟩, Or.inl rfl⟩
  · left
    subst h
    refine ⟨⟨_, extension_plain c suf hc hsuf⟩, ⟨_, fileName_plain c suf hc hsuf⟩, Or.inr ?_⟩
    rw [afterLastSlash_of_no_slash]
    · intro hmem
      rcases List.mem_cons.mp hmem with hx | hx
      · exact hc.2 hx.symm
      · exact (hsuf _ hx).2 rfl
    · intro x hx
      rcases List.mem_cons.mp hx with hx | hx
      · rw [hx]; exact hc.1
      · exact (hsuf x hx).1
  · rcases hc with hc | hc
    · left
      subst h hc
      refine ⟨⟨_, extension_append_slash pre suf hsuf⟩,
        ⟨_, fileName_append_slash pre suf hsuf⟩, Or.inr ?_⟩
      rw [afterLastSlash_append_slash pre suf (fun x hx => (hsuf x hx).1)]
      intro hmem
      exact (hsuf _ hmem).2 rfl
    · right
      subst h hc
      exact ⟨pre, suf, rfl, hsuf, extension_append_dot pre suf hsuf,
        fileName_append_dot pre suf hsuf, by simp,
        dot_mem_afterLastSlash_append_dot pre suf (fun x hx => (hsuf x hx).1)⟩

/-- C12: for every path of the form prefix + "." + ext in which ext contains neither
'.' nor '/', extension(path) returns exactly ext, also when ext is empty; and
whenever extension returns, its result contains neither '.' nor '/'. -/
theorem extension_returns_ext (pre ext : List Char)
    (hext : ∀ x ∈ ext, x ≠ '.' ∧ x ≠ '/') :
    extension (pre ++ '.' :: ext) = Except.ok ext ∧
    extension (pre ++ ['.']) = Except.ok [] ∧
    ∀ path r, extension path = Except.ok r → ∀ x ∈ r, x ≠ '.' ∧ x ≠ '/' := by
  refine ⟨extension_append_dot pre ext (fun x hx => ⟨(hext x hx).2, (hext x hx).1⟩),
    extension_append_dot pre [] (by simp), ?_⟩
  intro path r hr x hx
  rcases extension_fileName_cases path with ⟨⟨e, he⟩, -, -⟩ | ⟨p, s, -, hs, hes, -, -, -⟩
  · rw [he] at hr
    cases hr
  · rw [hes] at hr
    cases hr
    exact ⟨(hs x hx).2, (hs x hx).1⟩

/-- C12, witness: the extension of "dir.d/file.tar.gz" is "gz". -/
theorem extension_returns_ext_witness :
    extension "dir.d/file.tar.gz".toList = Except.ok "gz".toList :=
  (extension_returns_ext "dir.d/file.tar".toList "gz".toList (by decide)).1

/-- C13: extension(path) throws if and only if path is empty or the part of path
after its last '/' (the whole path when it contains no '/') contains no '.'; in
every other case it returns normally. -/
theorem extension_throws_iff (path : List Char) :
    (throws (extension path) ↔ (path = [] ∨ '.' ∉ afterLastSlash path)) ∧
    (¬ (path = [] ∨ '.' ∉ afterLastSlash path) → ∃ r, extension path = Except.ok r) := by
  rcases extension_fileName_cases path with ⟨ht, -, hc⟩ | ⟨p, s, -, -, hes, -, hne, hdot⟩
  · exact ⟨⟨fun _ => hc, fun _ => ht⟩, fun h => absurd hc h⟩
  · refine ⟨⟨?_, ?_⟩, fun _ => ⟨s, hes⟩⟩
    · rintro ⟨e, he⟩
      rw [hes] at he
      cases he
    · rintro (h | h)
      · exact absurd h hne
      · exact absurd hdot h

/-- C14: for every path of the form prefix + "." + ext in which ext contains neither
'.' nor '/', fileName(path) returns exactly prefix, directory components
included; and fileName throws on exactly the paths on which extension throws,
namely the empty path and the paths with no dot after the last slash. -/
theorem fileName_returns_stem (pre ext : List Char)
    (hext : ∀ x ∈ ext, x ≠ '.' ∧ x ≠ '/') :
    fileName (pre ++ '.' :: ext) = Except.ok pre ∧
    (∀ path, throws (fileName path) ↔ throws (extension path)) ∧
    (∀ path, throws (fileName path) ↔ (path = [] ∨ '.' ∉ afterLastSlash path)) := by
  refine ⟨fileName_append_dot pre ext (fun x hx => ⟨(hext x hx).2, (hext x hx).1⟩), ?_, ?_⟩
  · intro path
    rcases extension_fileName_cases path with ⟨hte, htf, -⟩ | ⟨p, s, -, -, hes, hfs, -, -⟩
    · exact ⟨fun _ => hte, fun _ => htf⟩
    · constructor
      · rintro ⟨e, he⟩
        rw [hfs] at he
        cases he
      · rintro ⟨e, he⟩
        rw [hes] at he
        cases he
  · intro path
    rcases extension_fileName_cases path with ⟨-, htf, hc⟩ | ⟨p, s, -, -, -, hfs, hne, hdot⟩
    · exact ⟨fun _ => hc, fun _ => htf⟩
    · constructor
      · rintro ⟨e, he⟩
        rw [hfs] at he
        cases he
      · rintro (h | h)
        · exact absurd h hne
        · exact absurd hdot h

/-- C14, witness: the file name of "dir.d/file.tar.gz" is "dir.d/file.tar". -/
theorem fileName_returns_stem_witness :
    fileName "dir.d/file.tar.gz".toList = Except.ok "dir.d/file.tar".toList :=
  (fileName_returns_stem "dir.d/file.tar".toList "gz".toList (by decide)).1

/-- C20: for every path on which extension(path) succeeds, fileName(path) also
succeeds and fileName(path) + "." + extension(path) is the path. -/
theorem fileName_dot_extension (path e : List Char)
    (h : extension path = Except.ok e) :
    ∃ f, fileName path = Except.ok f ∧ f ++ '.' :: e = path := by
  rcases extension_fileName_cases path with ⟨⟨x, hx⟩, -, -⟩ | ⟨p, s, hp, -, hes, hfs, -, -⟩
  · rw [hx] at h
    cases h
  · rw [hes] at h
    cases h
    exact ⟨p, hfs, hp.symm⟩

/-- C20, witness: "dir.d/file.tar.gz" splits into "dir.d/file.tar" and "gz". -/
theorem fileName_dot_extension_witness :
    ∃ f, fileName "dir.d/file.tar.gz".toList = Except.ok f ∧
      f ++ '.' :: "gz".toList = "dir.d/file.tar.gz".toList :=
  fileName_dot_extension "dir.d/file.tar.gz".toList "gz".toList (by rfl)

end filesystem


/-! ### Moving a file -/

namespace filesystem

/-- C15: move(oldPath, newPath) throws and calls no rename when oldPath does not
exist, and throws and calls no rename when newPath already exists, leaving the
state of the operating system as it was; rename is called only when oldPath
exists and newPath does not, and then exactly once with these two paths. -/
theorem move_guards (os : OperatingSystem) (s : os.State) (oldPath newPath : List Char) :
    (os.pathExists s oldPath = false →
      (move os s oldPath newPath).result = Except.error RuntimeError.doesNotExist ∧
      (move os s oldPath newPath).renameCalls = [] ∧
      (move os s oldPath newPath).state = s) ∧
    (os.pathExists s newPath = true →
      throws (move os s oldPath newPath).result ∧
      (move os s oldPath newPath).renameCalls = [] ∧
      (move os s oldPath newPath).state = s) ∧
    ((move os s oldPath newPath).renameCalls ≠ [] ↔
      (os.pathExists s oldPath = true ∧ os.pathExists s newPath = false)) ∧
    ((os.pathExists s oldPath = true ∧ os.pathExists s newPath = false) →
      (move os s oldPath newPath).renameCalls = [(oldPath, newPath)] ∧
      (move os s oldPath newPath).state = (os.rename s oldPath newPath).2) := by
  cases ho : os.pathExists s oldPath <;> cases hn : os.pathExists s newPath <;>
    simp [move, ho, hn, throws]
  split_ifs <;> simp

end filesystem

/-! ### Alignment pages -/

namespace Assembler

theorem countDeadEndOverhang_updates (isLeftEnd : List Bool) (minOverhang i : Nat)
    (alignment : AlignmentInfo) (h : Histogram2) :
    (countDeadEndOverhang isLeftEnd minOverhang i alignment h).updates =
      h.updates ++
        (if minOverhang < overhang (isLeftEnd.getD i false) alignment then
          [overhang (isLeftEnd.getD i false) alignment] else []) := by
  unfold countDeadEndOverhang overhang
  cases isLeftEnd.getD i false <;> simp only [Bool.false_eq_true, if_false, if_true, gt_iff_lt] <;>
    split_ifs <;> simp [Histogram2.update]

theorem countDeadEndOverhangsLoop_updates (isLeftEnd : List Bool) (minOverhang : Nat)
    (rest : List (OrientedReadId × AlignmentInfo)) (i : Nat) (h : Histogram2)
    (hlen : i + rest.length ≤ isLeftEnd.length) :
    (countDeadEndOverhangsLoop isLeftEnd minOverhang rest i h).updates =
      h.updates ++
        (((rest.zip (isLeftEnd.drop i)).map (fun p => overhang p.2 p.1.2)).filter
          (fun x => decide (minOverhang < x))) := by
  induction rest generalizing i h with
  | nil => simp [countDeadEndOverhangsLoop]
  | cons p rest ih =>
    have hi : i < isLeftEnd.length := by
      simp only [List.length_cons] at hlen
      omega
    have hdrop : isLeftEnd.drop i = isLeftEnd.getD i false :: isLeftEnd.drop (i + 1) := by
      rw [List.getD_eq_getElem?_getD, List.getElem?_eq_getElem hi]
      simp
    rw [countDeadEndOverhangsLoop, ih (i + 1) _ (by simp only [List.length_cons] at hlen; omega),
      countDeadEndOverhang_updates, hdrop]
    simp only [List.zip_cons_cons, List.map_cons, List.filter_cons, List.append_assoc]
    split_ifs <;> first | (simp_all; done) | (simp_all; omega)

/-- C16, the code at the failing input: one alignment at a left end with
leftTrim(1) = 3 and minOverhang = 3.  The overhang is not less than minOverhang,
so the results page announces it in the histogram, yet countDeadEndOverhangs
adds nothing; in general the function adds exactly the overhangs that are
greater than minOverhang. -/
theorem countDeadEndOverhangs_drops_equal_overhang :
    countDeadEndOverhangs [(⟨0⟩, overhangThree)] [true] ⟨[]⟩ 3 = ⟨[]⟩ ∧
    announcedOverhangs [(⟨0⟩, overhangThree)] [true] 3 = [3] ∧
    ∀ (allAlignmentInfo : List (OrientedReadId × AlignmentInfo)) (isLeftEnd : List Bool)
      (overhangLengths : Histogram2) (minOverhang : Nat),
      allAlignmentInfo.length = isLeftEnd.length →
      (countDeadEndOverhangs allAlignmentInfo isLeftEnd overhangLengths minOverhang).updates =
        overhangLengths.updates ++
          (((allAlignmentInfo.zip isLeftEnd).map (fun p => overhang p.2 p.1.2)).filter
            (fun x => decide (minOverhang < x))) := by
  refine ⟨rfl, rfl, ?_⟩
  intro all isLeftEnd h m hlen
  unfold countDeadEndOverhangs
  rw [countDeadEndOverhangsLoop_updates isLeftEnd m all 0 h (by omega)]
  simp

/-- C17, the code at the failing input: with both parameters present, the read id
equal to readCount is not rejected; the OrientedReadId is built and the local
graph is created for it.  The read ids that are rejected are exactly those
greater than readCount. -/
theorem exploreAlignmentGraph_accepts_readCount :
    (∀ readCount : Nat,
      exploreAlignmentGraph readCount true true readCount 0 =
        ExploreOutcome.graphFor (OrientedReadId.ofReadIdAndStrand readCount 0)) ∧
    (∀ readCount readId strand : Nat,
      exploreAlignmentGraph readCount true true readId strand = ExploreOutcome.invalidReadId ↔
        readCount < readId) ∧
    (∀ readCount readId strand : Nat, readId ≤ readCount →
      (exploreAlignmentGraph readCount true true readId strand = ExploreOutcome.invalidStrand ↔
        1 < strand)) := by
  refine ⟨?_, ?_, ?_⟩
  · intro readCount
    simp [exploreAlignmentGraph]
  · intro readCount readId strand
    unfold exploreAlignmentGraph
    by_cases h : readId > readCount
    · simp [h]
    · simp only [Bool.not_true, Bool.or_self, Bool.false_eq_true, if_false, h]
      split_ifs <;> simp
  · intro readCount readId strand hle
    unfold exploreAlignmentGraph
    have h : ¬ readId > readCount := by omega
    simp only [Bool.not_true, Bool.or_self, Bool.false_eq_true, if_false, h]
    split_ifs with hs <;> simp <;> omega

theorem processCandidate_cases (methods : AlignmentMethods) (data : ComputeAllAlignmentsData)
    (readId1 strand1 : Nat) (alignments : List (OrientedReadId × AlignmentInfo)) :
    (processCandidate methods data readId1 strand1 alignments = alignments ∧
      ¬ ∃ y, StoreConditions fractionNotBelow methods data readId1 strand1 y) ∨
    ∃ y, processCandidate methods data readId1 strand1 alignments = alignments ++ [y] ∧
      StoreConditions fractionNotBelow methods data readId1 strand1 y ∧
      ∀ z, StoreConditions fractionNotBelow methods data readId1 strand1 z → z = y := by
  unfold processCandidate
  simp only
  by_cases h1 : data.orientedReadId0.getReadId = readId1 ∧
      data.orientedReadId0.getStrand = strand1
  · left
    rw [if_pos h1]
    refine ⟨rfl, ?_⟩
    rintro ⟨y, -, hy, -⟩
    rcases hy with hy | hy
    · exact hy h1.1
    · exact hy h1.2
  rw [if_neg h1]
  by_cases h2 : methods.markerCount (OrientedReadId.ofReadIdAndStrand readId1 strand1) <
      data.minMarkerCount
  · left
    rw [if_pos h2]
    refine ⟨rfl, ?_⟩
    rintro ⟨y, hy1, -, hy3, -⟩
    rw [hy1] at hy3
    omega
  rw [if_neg h2]
  cases hc : computeAlignment methods data (OrientedReadId.ofReadIdAndStrand readId1 strand1) with
  | none =>
    left
    refine ⟨rfl, ?_⟩
    rintro ⟨y, hy1, -, -, a, ha, -⟩
    rw [hy1, hc] at ha
    cases ha
  | some p =>
    obtain ⟨alignment, info⟩ := p
    simp only
    have huniq : ∀ z, StoreConditions fractionNotBelow methods data readId1 strand1 z →
        z = (OrientedReadId.ofReadIdAndStrand readId1 strand1, info) ∧
        data.minAlignedMarkerCount ≤ alignment.ordinals.length ∧
        Double.lt info.minAlignedFraction data.minAlignedFraction = false ∧
        info.computeTrim.1 ≤ data.maxTrim ∧ info.computeTrim.2 ≤ data.maxTrim ∧
        info.maxDrift ≤ data.maxDrift ∧ info.maxSkip ≤ data.maxSkip := by
      rintro ⟨z1, z2⟩ ⟨hz1, -, -, a, ha, hz5, hz6, hz7, hz8, hz9, hz10⟩
      simp only at hz1 ha hz5 hz6 hz7 hz8 hz9 hz10
      rw [hz1, hc] at ha
      cases ha
      refine ⟨by rw [hz1], hz5, ?_, hz7, hz8, hz9, hz10⟩
      simpa [fractionNotBelow] using hz6
    by_cases h3 : alignment.ordinals.length < data.minAlignedMarkerCount ∨
        Double.lt info.minAlignedFraction data.minAlignedFraction = true
    · left
      rw [if_pos h3]
      refine ⟨rfl, ?_⟩
      rintro ⟨z, hz⟩
      obtain ⟨-, hz5, hz6, -⟩ := huniq z hz
      rcases h3 with h3 | h3
      · omega
      · rw [hz6] at h3
        cases h3
    rw [if_neg h3]
    by_cases h4 : info.computeTrim.1 > data.maxTrim ∨ info.computeTrim.2 > data.maxTrim
    · left
      rw [if_pos h4]
      refine ⟨rfl, ?_⟩
      rintro ⟨z, hz⟩
      obtain ⟨-, -, -, hz7, hz8, -⟩ := huniq z hz
      omega
    rw [if_neg h4]
    by_cases h5 : info.maxDrift > data.maxDrift ∨ info.maxSkip > data.maxSkip
    · left
      rw [if_pos h5]
      refine ⟨rfl, ?_⟩
      rintro ⟨z, hz⟩
      obtain ⟨-, -, -, -, -, hz9, hz10⟩ := huniq z hz
      omega
    rw [if_neg h5]
    right
    refine ⟨(OrientedReadId.ofReadIdAndStrand readId1 strand1, info), rfl, ?_,
      fun z hz => (huniq z hz).1⟩
    unfold StoreConditions
    dsimp only
    refine ⟨rfl, ?_, by omega, alignment, hc, by omega, ?_, by omega, by omega,
      by omega, by omega⟩
    · by_contra hcon
      exact h1 ⟨by omega, by omega⟩
    · cases hlt : Double.lt info.minAlignedFraction data.minAlignedFraction
      · simp [fractionNotBelow, hlt]
      · exact absurd (Or.inr hlt) h3

theorem processCandidate_eq_append_iff (methods : AlignmentMethods)
    (data : ComputeAllAlignmentsData) (readId1 strand1 : Nat)
    (alignments : List (OrientedReadId × AlignmentInfo)) (x : OrientedReadId × AlignmentInfo) :
    processCandidate methods data readId1 strand1 alignments = alignments ++ [x] ↔
      StoreConditions fractionNotBelow methods data readId1 strand1 x := by
  rcases processCandidate_cases methods data readId1 strand1 alignments with
    ⟨heq, hno⟩ | ⟨y, heq, hy, huniq⟩
  · constructor
    · intro h
      rw [heq] at h
      have := congrArg List.length h
      simp at this
    · intro h
      exact absurd ⟨x, h⟩ hno
  · constructor
    · intro h
      rw [heq] at h
      have hxy : y = x := by simpa using h
      rw [← hxy]
      exact hy
    · intro h
      rw [heq, huniq x h]

theorem mem_processCandidate (methods : AlignmentMethods) (data : ComputeAllAlignmentsData)
    (readId1 strand1 : Nat) (alignments : List (OrientedReadId × AlignmentInfo))
    (x : OrientedReadId × AlignmentInfo) :
    x ∈ processCandidate methods data readId1 strand1 alignments ↔
      (x ∈ alignments ∨ StoreConditions fractionNotBelow methods data readId1 strand1 x) := by
  rcases processCandidate_cases methods data readId1 strand1 alignments with
    ⟨heq, hno⟩ | ⟨y, heq, hy, huniq⟩
  · rw [heq]
    constructor
    · exact Or.inl
    · rintro (h | h)
      · exact h
      · exact absurd ⟨x, h⟩ hno
  · rw [heq]
    simp only [List.mem_append, List.mem_singleton]
    constructor
    · rintro (h | h)
      · exact Or.inl h
      · rw [h]
        exact Or.inr hy
    · rintro (h | h)
      · exact Or.inl h
      · exact Or.inr (huniq x h)

theorem mem_foldl_iff {α β : Type} (f : List β → α → List β) (P : α → β → Prop)
    (hf : ∀ acc a x, x ∈ f acc a ↔ (x ∈ acc ∨ P a x)) (l : List α) (acc : List β) (x : β) :
    x ∈ l.foldl f acc ↔ (x ∈ acc ∨ ∃ a ∈ l, P a x) := by
  induction l generalizing acc with
  | nil => simp
  | cons a rest ih =>
    rw [List.foldl_cons, ih, hf]
    simp only [List.mem_cons, exists_eq_or_imp]
    tauto

theorem fractionNotBelow_eq_fractionAtLeast (fraction minimum : Double)
    (hf : fraction.isNan = false) (hm : minimum.isNan = false) :
    fractionNotBelow fraction minimum = fractionAtLeast fraction minimum := by
  cases fraction with
  | nan => simp [Double.isNan] at hf
  | fin a =>
    cases minimum with
    | nan => simp [Double.isNan] at hm
    | fin b =>
      by_cases h : a < b
      · simp [fractionNotBelow, fractionAtLeast, Double.lt, Double.le, h]
      · simp [fractionNotBelow, fractionAtLeast, Double.lt, Double.le, h, not_lt.mp h]
    | inf n => cases n <;> simp [fractionNotBelow, fractionAtLeast, Double.lt, Double.le]
  | inf n =>
    cases minimum with
    | nan => simp [Double.isNan] at hm
    | fin b => cases n <;> simp [fractionNotBelow, fractionAtLeast, Double.lt, Double.le]
    | inf m =>
      cases n <;> cases m <;> simp [fractionNotBelow, fractionAtLeast, Double.lt, Double.le]

/-- C18, counterexample: with the minimum aligned fraction NaN, the candidate read 1
on strand 0, whose alignment has aligned fraction 1/2 and passes every other
test, is stored, although 1/2 >= NaN does not hold. -/
theorem computeAllAlignments_nan_counterexample :
    processCandidate sampleMethods (sampleData Double.nan) 1 0 [] =
      [(OrientedReadId.ofReadIdAndStrand 1 0, halfAligned)] ∧
    computeAllAlignmentsThreadFunction sampleMethods (sampleData Double.nan) [(1, 2)] [] =
      [(OrientedReadId.ofReadIdAndStrand 1 0, halfAligned),
       (OrientedReadId.ofReadIdAndStrand 1 1, halfAligned)] ∧
    fractionAtLeast halfAligned.minAlignedFraction (sampleData Double.nan).minAlignedFraction =
      false ∧
    ¬ StoreConditions fractionAtLeast sampleMethods (sampleData Double.nan) 1 0
      (OrientedReadId.ofReadIdAndStrand 1 0, halfAligned) := by
  have hstore : processCandidate sampleMethods (sampleData Double.nan) 1 0 [] =
      [(OrientedReadId.ofReadIdAndStrand 1 0, halfAligned)] := by
    simp [processCandidate, sampleMethods, sampleData, computeAlignment, halfAligned,
      OrientedReadId.ofReadIdAndStrand, OrientedReadId.getReadId, OrientedReadId.getStrand,
      Double.lt]
  have hfrac : fractionAtLeast halfAligned.minAlignedFraction
      (sampleData Double.nan).minAlignedFraction = false := by
    simp [fractionAtLeast, sampleData, halfAligned, Double.le]
  refine ⟨hstore, ?_, hfrac, ?_⟩
  · simp [computeAllAlignmentsThreadFunction, processCandidate, sampleMethods, sampleData,
      computeAlignment, halfAligned, OrientedReadId.ofReadIdAndStrand,
      OrientedReadId.getReadId, OrientedReadId.getStrand, Double.lt, List.range']
  · rintro ⟨-, -, -, a, -, -, h, -⟩
    rw [hfrac] at h
    cases h

/-- C18 (amended): computeAllAlignmentsThreadFunction stores a candidate
(orientedReadId1, alignmentInfo) if and only if orientedReadId1 differs from
orientedReadId0 in read id or strand, the read has at least minMarkerCount
markers, the alignment is computed without exception and has at least
minAlignedMarkerCount aligned markers, minAlignedFraction() is not less than the
minimum (which is minAlignedFraction() >= the minimum when neither is NaN), left
and right trim are both <= maxTrim, and maxDrift and maxSkip of the alignment
are both <= their limits.  This holds for one candidate and for the vector the
thread has filled after all its batches. -/
theorem computeAllAlignments_stores_iff (methods : AlignmentMethods)
    (data : ComputeAllAlignmentsData) (alignments : List (OrientedReadId × AlignmentInfo))
    (x : OrientedReadId × AlignmentInfo) :
    (∀ readId1 strand1 : Nat,
      processCandidate methods data readId1 strand1 alignments = alignments ++ [x] ↔
        StoreConditions fractionNotBelow methods data readId1 strand1 x) ∧
    (∀ readId1 strand1 : Nat,
      ¬ (∃ y, StoreConditions fractionNotBelow methods data readId1 strand1 y) →
        processCandidate methods data readId1 strand1 alignments = alignments) ∧
    (∀ batches : List (Nat × Nat),
      x ∈ computeAllAlignmentsThreadFunction methods data batches alignments ↔
        (x ∈ alignments ∨
          ∃ batch ∈ batches, ∃ readId1, batch.1 ≤ readId1 ∧ readId1 < batch.2 ∧
            ∃ strand1, strand1 < 2 ∧
              StoreConditions fractionNotBelow methods data readId1 strand1 x)) ∧
    (∀ readId1 strand1 : Nat, x.2.minAlignedFraction.isNan = false →
      data.minAlignedFraction.isNan = false →
      (StoreConditions fractionNotBelow methods data readId1 strand1 x ↔
        StoreConditions fractionAtLeast methods data readId1 strand1 x)) := by
  refine ⟨fun r s => processCandidate_eq_append_iff methods data r s alignments x, ?_, ?_, ?_⟩
  · intro r s hno
    rcases processCandidate_cases methods data r s alignments with ⟨heq, -⟩ | ⟨y, -, hy, -⟩
    · exact heq
    · exact absurd ⟨y, hy⟩ hno
  · intro batches
    unfold computeAllAlignmentsThreadFunction
    rw [mem_foldl_iff _
      (fun batch y => ∃ readId1, batch.1 ≤ readId1 ∧ readId1 < batch.2 ∧
        ∃ strand1, strand1 < 2 ∧
          StoreConditions fractionNotBelow methods data readId1 strand1 y)]
    intro acc batch y
    rw [mem_foldl_iff _
      (fun readId1 y => ∃ strand1, strand1 < 2 ∧
          StoreConditions fractionNotBelow methods data readId1 strand1 y)]
    · apply or_congr Iff.rfl
      constructor
      · rintro ⟨r, hr, hs⟩
        rw [List.mem_range'_1] at hr
        exact ⟨r, hr.1, by omega, hs⟩
      · rintro ⟨r, hr1, hr2, hs⟩
        exact ⟨r, by rw [List.mem_range'_1]; omega, hs⟩
    · intro acc readId1 z
      rw [mem_foldl_iff _
        (fun strand1 y => StoreConditions fractionNotBelow methods data readId1 strand1 y)]
      · apply or_congr Iff.rfl
        constructor
        · rintro ⟨s, hs, hc⟩
          refine ⟨s, ?_, hc⟩
          simp only [List.mem_cons, List.mem_singleton, List.not_mem_nil, or_false] at hs
          omega
        · rintro ⟨s, hs, hc⟩
          refine ⟨s, ?_, hc⟩
          simp only [List.mem_cons, List.mem_singleton, List.not_mem_nil, or_false]
          omega
      · intro acc strand1 w
        exact mem_processCandidate methods data readId1 strand1 acc w
  · intro r s hx hd
    unfold StoreConditions
    rw [fractionNotBelow_eq_fractionAtLeast _ _ hx hd]

end Assembler

/-! ### Compressed pseudopaths -/

theorem compressedPseudoPathScan_spec (rest : List PseudoPathEntry)
    (current : CompressedPseudoPathEntry) (span : List PseudoPathEntry)
    (hspan : IsSpanOf current span) :
    ∃ spans : List (List PseudoPathEntry),
      spans.flatten = span ++ rest ∧
      List.Forall₂ IsSpanOf (compressedPseudoPathScan rest current) spans ∧
      List.Chain' (fun a b => a.segmentId ≠ b.segmentId)
        (compressedPseudoPathScan rest current) ∧
      ∃ c tail, compressedPseudoPathScan rest current = c :: tail ∧
        c.segmentId = current.segmentId := by
  induction rest generalizing current span with
  | nil =>
    refine ⟨[span], by simp, ?_, ?_, current, [], rfl, rfl⟩
    · simp [compressedPseudoPathScan, hspan]
    · simp [compressedPseudoPathScan]
  | cons entry rest ih =>
    by_cases hseg : entry.segmentId ≠ current.segmentId
    · have hnew : IsSpanOf ⟨entry.segmentId, ![entry, entry]⟩ [entry] := by
        simp [IsSpanOf]
      obtain ⟨spans, hflat, hall, hchain, c, tail, hc, hcseg⟩ := ih _ [entry] hnew
      refine ⟨span :: spans, ?_, ?_, ?_, current, c :: tail, ?_, rfl⟩
      · simp [hflat]
      · rw [compressedPseudoPathScan, if_pos hseg]
        exact List.Forall₂.cons hspan hall
      · rw [compressedPseudoPathScan, if_pos hseg, hc, List.chain'_cons]
        refine ⟨?_, ?_⟩
        · rw [hcseg]
          exact fun h => hseg h.symm
        · rw [← hc]
          exact hchain
      · rw [compressedPseudoPathScan, if_pos hseg, hc]
    · have heq : entry.segmentId = current.segmentId := not_not.mp hseg
      have hnew : IsSpanOf ⟨current.segmentId, ![current.pseudoPathEntries 0, entry]⟩
          (span ++ [entry]) := by
        obtain ⟨hne, hhead, -, hsegs⟩ := hspan
        refine ⟨by simp, ?_, by simp, ?_⟩
        · cases span with
          | nil => exact absurd rfl hne
          | cons a t => simpa using hhead
        · intro e he
          rcases List.mem_append.mp he with he | he
          · exact hsegs e he
          · rw [List.mem_singleton.mp he]
            exact heq
      obtain ⟨spans, hflat, hall, hchain, c, tail, hc, hcseg⟩ := ih _ (span ++ [entry]) hnew
      refine ⟨spans, ?_, ?_, ?_, c, tail, ?_, ?_⟩
      · simp [hflat]
      · rw [compressedPseudoPathScan, if_neg hseg]
        exact hall
      · rw [compressedPseudoPathScan, if_neg hseg]
        exact hchain
      · rw [compressedPseudoPathScan, if_neg hseg]
        exact hc
      · exact hcseg

theorem spanRanges_head (spans : List (List PseudoPathEntry)) (start : Nat) :
    ∀ r ∈ (spanRanges spans start).head?, r.1 = start := by
  cases spans with
  | nil => simp [spanRanges]
  | cons g rest => simp [spanRanges]

theorem spanRanges_chain (spans : List (List PseudoPathEntry)) (start : Nat) :
    List.Chain' (fun a b : Nat × Nat => a.2 = b.1) (spanRanges spans start) := by
  induction spans generalizing start with
  | nil => simp [spanRanges]
  | cons g rest ih =>
    rw [spanRanges, List.chain'_cons']
    refine ⟨?_, ih _⟩
    intro y hy
    exact (spanRanges_head rest _ y hy).symm

theorem spanRanges_getLast (spans : List (List PseudoPathEntry)) (start : Nat) :
    ∀ r ∈ (spanRanges spans start).getLast?, r.2 = start + spans.flatten.length := by
  induction spans generalizing start with
  | nil => simp [spanRanges]
  | cons g rest ih =>
    intro r hr
    cases rest with
    | nil =>
      simp only [spanRanges, List.getLast?_singleton, Option.mem_def, Option.some.injEq] at hr
      rw [← hr]
      simp
    | cons g2 rest2 =>
      rw [spanRanges, spanRanges, List.getLast?_cons_cons] at hr
      rw [ih (start + g.length) r (by rw [spanRanges]; exact hr)]
      simp only [List.flatten_cons, List.length_append]
      omega

theorem spanRanges_spans (spans : List (List PseudoPathEntry)) (pre : List PseudoPathEntry)
    (post : List PseudoPathEntry)
    (hne : ∀ g ∈ spans, g ≠ []) :
    List.Forall₂
      (fun (span : List PseudoPathEntry) (r : Nat × Nat) =>
        r.1 < r.2 ∧ span = ((pre ++ (spans.flatten ++ post)).drop r.1).take (r.2 - r.1))
      spans (spanRanges spans pre.length) := by
  induction spans generalizing pre with
  | nil => simp [spanRanges]
  | cons g rest ih =>
    rw [spanRanges]
    refine List.Forall₂.cons ⟨?_, ?_⟩ ?_
    · have := hne g (List.mem_cons_self _ _)
      have hpos : 0 < g.length := List.length_pos.mpr this
      simp only
      omega
    · simp
    · have h := ih (pre ++ g) (fun x hx => hne x (List.mem_cons_of_mem _ hx))
      simp only [List.length_append, List.append_assoc] at h
      simpa using h

theorem spans_nonempty (cs : List CompressedPseudoPathEntry)
    (spans : List (List PseudoPathEntry)) (hall : List.Forall₂ IsSpanOf cs spans) :
    ∀ g ∈ spans, g ≠ [] := by
  induction hall with
  | nil => simp
  | cons h _ ih =>
    intro g hg
    rcases List.mem_cons.mp hg with hg | hg
    · rw [hg]
      exact h.1
    · exact ih g hg

/-- C19: for every raw pseudopath, the compressed entries produced by
computeCompressedPseudoPath correspond, in order, to spans of consecutive raw
entries that exactly partition the index range [0, n): the spans concatenated
give the pseudopath, each span is a non-empty index range [begin, end), the
first begins at 0, each next one begins where the previous ends and the last
ends at n; consecutive compressed entries have different segmentId, all raw
entries of a span have the segmentId of its compressed entry, and
pseudoPathEntries[0] / [1] are the first / last raw entry of the span. -/
theorem computeCompressedPseudoPath_partitions (pseudoPath : List PseudoPathEntry) :
    ∃ spans : List (List PseudoPathEntry),
      spans.flatten = pseudoPath ∧
      List.Forall₂ IsSpanOf (computeCompressedPseudoPath pseudoPath) spans ∧
      List.Chain' (fun a b => a.segmentId ≠ b.segmentId)
        (computeCompressedPseudoPath pseudoPath) ∧
      List.Forall₂
        (fun (span : List PseudoPathEntry) (r : Nat × Nat) =>
          r.1 < r.2 ∧ span = (pseudoPath.drop r.1).take (r.2 - r.1))
        spans (spanRanges spans 0) ∧
      List.Chain' (fun a b : Nat × Nat => a.2 = b.1) (spanRanges spans 0) ∧
      (∀ r ∈ (spanRanges spans 0).head?, r.1 = 0) ∧
      (∀ r ∈ (spanRanges spans 0).getLast?, r.2 = pseudoPath.length) := by
  have hmain : ∃ spans : List (List PseudoPathEntry),
      spans.flatten = pseudoPath ∧
      List.Forall₂ IsSpanOf (computeCompressedPseudoPath pseudoPath) spans ∧
      List.Chain' (fun a b => a.segmentId ≠ b.segmentId)
        (computeCompressedPseudoPath pseudoPath) := by
    cases pseudoPath with
    | nil => exact ⟨[], rfl, by simp [computeCompressedPseudoPath], by
        simp [computeCompressedPseudoPath]⟩
    | cons entry rest =>
      have hnew : IsSpanOf ⟨entry.segmentId, ![entry, entry]⟩ [entry] := by
        simp [IsSpanOf]
      obtain ⟨spans, hflat, hall, hchain, -⟩ := compressedPseudoPathScan_spec rest _ _ hnew
      exact ⟨spans, by simpa using hflat, hall, hchain⟩
  obtain ⟨spans, hflat, hall, hchain⟩ := hmain
  have hne : ∀ g ∈ spans, g ≠ [] := spans_nonempty _ spans hall
  refine ⟨spans, hflat, hall, hchain, ?_, spanRanges_chain spans 0,
    spanRanges_head spans 0, ?_⟩
  · have h := spanRanges_spans spans [] [] hne
    simpa [hflat] using h
  · intro r hr
    rw [spanRanges_getLast spans 0 r hr, hflat]
    simp


/-! ### Jaccard similarity against the worse unexplained fraction -/

theorem one_sub_ratio (c u : Nat) (hc : 0 < c) :
    (1 : ℚ) - (u : ℚ) / ((c + u : ℕ) : ℚ) = (c : ℚ) / ((c + u : ℕ) : ℚ) := by
  have h : ((c + u : ℕ) : ℚ) ≠ 0 := by
    have : 0 < c + u := by omega
    exact_mod_cast this.ne.symm
  rw [eq_div_iff h, sub_mul, div_mul_cancel₀ _ h]
  push_cast
  ring

theorem ratio_le_ratio (c a b : Nat) (hc : 0 < c) (hab : b ≤ a) :
    (c : ℚ) / ((c + a : ℕ) : ℚ) ≤ (c : ℚ) / ((c + b : ℕ) : ℚ) := by
  have hb : (0 : ℚ) < ((c + b : ℕ) : ℚ) := by
    have : 0 < c + b := by omega
    exact_mod_cast this
  have hle : ((c + b : ℕ) : ℚ) ≤ ((c + a : ℕ) : ℚ) := by
    have : c + b ≤ c + a := by omega
    exact_mod_cast this
  exact div_le_div_of_nonneg_left (by positivity) hb hle

theorem ratio_unit (a b : Nat) (hb : 0 < b) (hab : a ≤ b) :
    (0 : ℚ) ≤ (a : ℚ) / (b : ℚ) ∧ (a : ℚ) / (b : ℚ) ≤ 1 := by
  have hbq : (0 : ℚ) < (b : ℚ) := by exact_mod_cast hb
  refine ⟨div_nonneg (Nat.cast_nonneg a) hbq.le, ?_⟩
  rw [div_le_one hbq]
  exact_mod_cast hab

theorem roundToBinary64_unit (q : ℚ) (h0 : 0 ≤ q) (h1 : q ≤ 1) :
    0 ≤ roundToBinary64 q ∧ roundToBinary64 q ≤ 1 :=
  ⟨roundToBinary64_ge q 0 isBinary64_zero h0, roundToBinary64_le q 1 isBinary64_one h1⟩

/-- A ratio with a positive dividend and a divisor of at most `2^53` rounds to a
double that is at least `2^-53`. -/
theorem roundToBinary64_ratio_pos (a b : Nat) (ha : 0 < a) (hb0 : 0 < b) (hb : b ≤ 2 ^ 53) :
    0 < roundToBinary64 ((a : ℚ) / (b : ℚ)) := by
  have hbq : (0 : ℚ) < (b : ℚ) := by exact_mod_cast hb0
  have hle : (2 : ℚ) ^ (-53 : ℤ) ≤ (a : ℚ) / (b : ℚ) := by
    rw [le_div_iff₀ hbq]
    have h1 : (b : ℚ) ≤ ((2 ^ 53 : ℕ) : ℚ) := by exact_mod_cast hb
    have h2 : (1 : ℚ) ≤ (a : ℚ) := by exact_mod_cast ha
    have h3 : (2 : ℚ) ^ (-53 : ℤ) * ((2 ^ 53 : ℕ) : ℚ) = 1 := by norm_num
    calc (2 : ℚ) ^ (-53 : ℤ) * (b : ℚ) ≤ (2 : ℚ) ^ (-53 : ℤ) * ((2 ^ 53 : ℕ) : ℚ) :=
          mul_le_mul_of_nonneg_left h1 (two_zpow_pos _).le
      _ = 1 := h3
      _ ≤ (a : ℚ) := h2
  exact lt_of_lt_of_le (two_zpow_pos _)
    (roundToBinary64_ge _ _ (isBinary64_two_zpow (-53) (by norm_num)) hle)

/-- A ratio below 1 with a divisor of at most `2^53` rounds to a double below 1. -/
theorem roundToBinary64_ratio_lt_one (a b : Nat) (hab : a < b) (hb : b ≤ 2 ^ 53) :
    roundToBinary64 ((a : ℚ) / (b : ℚ)) < 1 := by
  have hb0 : 0 < b := by omega
  have hbq : (0 : ℚ) < (b : ℚ) := by exact_mod_cast hb0
  have hp : IsBinary64 ((((2 : ℤ) ^ 53 - 1 : ℤ) : ℚ) * (2 : ℚ) ^ (-53 : ℤ)) :=
    ⟨2 ^ 53 - 1, -53, by norm_num, by norm_num, rfl⟩
  have hle : (a : ℚ) / (b : ℚ) ≤ (((2 : ℤ) ^ 53 - 1 : ℤ) : ℚ) * (2 : ℚ) ^ (-53 : ℤ) := by
    rw [div_le_iff₀ hbq]
    have h1 : (b : ℚ) ≤ ((2 ^ 53 : ℕ) : ℚ) := by exact_mod_cast hb
    have h2 : (a : ℚ) + 1 ≤ (b : ℚ) := by exact_mod_cast hab
    have h3 : (((2 : ℤ) ^ 53 - 1 : ℤ) : ℚ) * (2 : ℚ) ^ (-53 : ℤ) = 1 - 1 / 2 ^ 53 := by
      norm_num
    rw [h3]
    have h4 : (b : ℚ) / 2 ^ 53 ≤ 1 := by
      rw [div_le_one (by positivity)]
      refine le_trans h1 ?_
      norm_num
    have h5 : (1 - 1 / 2 ^ 53) * (b : ℚ) = (b : ℚ) - (b : ℚ) / 2 ^ 53 := by ring
    rw [h5]
    linarith
  have h := roundToBinary64_le _ _ hp hle
  have hlt : (((2 : ℤ) ^ 53 - 1 : ℤ) : ℚ) * (2 : ℚ) ^ (-53 : ℤ) < 1 := by norm_num
  exact lt_of_le_of_lt h hlt

/-- The rounded Jaccard ratio against one minus a rounded unexplained ratio: three
roundings, each with an error of at most `2^-54`. -/
theorem rounded_ratio_le (c a m : Nat) (hc : 0 < c) (hm : m ≤ a) :
    roundToBinary64 ((c : ℚ) / ((c + a : ℕ) : ℚ)) ≤
      roundToBinary64 (1 - roundToBinary64 ((m : ℚ) / ((c + m : ℕ) : ℚ))) + 3 / 2 ^ 54 := by
  obtain ⟨j0, j1⟩ := ratio_unit c (c + a) (by omega) (by omega)
  obtain ⟨m0, m1⟩ := ratio_unit m (c + m) (by omega) (by omega)
  obtain ⟨r0, r1⟩ := roundToBinary64_unit _ m0 m1
  have e1 := roundToBinary64_error_unit _ j0 j1
  have e2 := roundToBinary64_error_unit _ m0 m1
  have e3 := roundToBinary64_error_unit (1 - roundToBinary64 ((m : ℚ) / ((c + m : ℕ) : ℚ)))
    (by linarith) (by linarith)
  have hx : (c : ℚ) / ((c + a : ℕ) : ℚ) ≤ 1 - (m : ℚ) / ((c + m : ℕ) : ℚ) := by
    rw [one_sub_ratio c m hc]
    exact ratio_le_ratio c a m hc hm
  rw [abs_le] at e1 e2 e3
  have h3 : (3 : ℚ) / 2 ^ 54 = 1 / 2 ^ 54 + 1 / 2 ^ 54 + 1 / 2 ^ 54 := by ring
  rw [h3]
  linarith [e1.1, e2.2, e3.2]

theorem Double.one_sub_of_unit (x : ℚ) (h0 : 0 ≤ x) (h1 : x ≤ 1) :
    Double.sub (Double.fin 1) (Double.fin x) = Double.fin (roundToBinary64 (1 - x)) := by
  show Double.ofRat (1 - x) = _
  apply Double.ofRat_of_abs_le
  rw [abs_le]
  constructor
  · have : (0 : ℚ) ≤ 2 ^ 64 := by positivity
    linarith
  · have : (1 : ℚ) ≤ 2 ^ 64 := by norm_num
    linarith

namespace SegmentPairInformation

theorem unexplainedFraction_of_small (s : SegmentPairInformation) (i : Fin 2)
    (hc : 0 < s.commonCount) (hno : s.commonCount + s.unexplainedCount i ≤ 2 ^ 53) :
    s.unexplainedFraction i =
      Double.fin (roundToBinary64 ((s.unexplainedCount i : ℚ) /
        ((s.commonCount + s.unexplainedCount i : ℕ) : ℚ))) := by
  have h64 : s.commonCount + s.unexplainedCount i < two64 := by unfold two64; omega
  unfold unexplainedFraction unexplainedDenominator
  rw [add64_eq_of_lt h64]
  exact Double.div_ofNat_of_le _ _ (by omega) hno (by omega)

theorem jaccard_of_small (s : SegmentPairInformation) (hc : 0 < s.commonCount)
    (hno : s.commonCount + s.unexplainedCount 0 + s.unexplainedCount 1 ≤ 2 ^ 53) :
    s.jaccard =
      Double.fin (roundToBinary64 ((s.commonCount : ℚ) /
        ((s.commonCount + (s.unexplainedCount 0 + s.unexplainedCount 1) : ℕ) : ℚ))) := by
  have h0 : s.commonCount + s.unexplainedCount 0 < two64 := by unfold two64; omega
  have h64 : s.commonCount + s.unexplainedCount 0 + s.unexplainedCount 1 < two64 := by
    unfold two64; omega
  unfold jaccard jaccardDenominator
  rw [add64_eq_of_lt h0, add64_eq_of_lt h64, Nat.add_assoc]
  exact Double.div_ofNat_of_le _ _ (by omega) (by omega) (by omega)

theorem fifthsPair_values :
    fifthsPair.jaccard = Double.fin (3602879701896397 / 2 ^ 54) ∧
    fifthsPair.maximumUnexplainedFraction = Double.fin (3602879701896397 / 2 ^ 52) ∧
    Double.sub (Double.fin 1) fifthsPair.maximumUnexplainedFraction =
      Double.fin (900719925474099 / 2 ^ 52) := by
  have hj : fifthsPair.jaccard = Double.fin (3602879701896397 / 2 ^ 54) := by
    have h := Double.div_ofNat_eq_of 1 5 (-3) 7205759403792794 (by norm_num) (by norm_num)
      (by norm_num) (by norm_num) (by norm_num [abs_of_pos]) (by norm_num [abs_of_pos])
      (by norm_num [abs_lt])
    have hv : ((7205759403792794 : ℤ) : ℚ) * (2 : ℚ) ^ ((-3 : ℤ) - 52) =
        3602879701896397 / 2 ^ 54 := by norm_num
    rw [hv] at h
    have e : fifthsPair.jaccard = Double.div (Double.ofNat 1) (Double.ofNat 5) := rfl
    rw [e, h]
  have h0 : fifthsPair.unexplainedFraction 0 = Double.fin (3602879701896397 / 2 ^ 52) := by
    have h := Double.div_ofNat_eq_of 4 5 (-1) 7205759403792794 (by norm_num) (by norm_num)
      (by norm_num) (by norm_num) (by norm_num [abs_of_pos]) (by norm_num [abs_of_pos])
      (by norm_num [abs_lt])
    have hv : ((7205759403792794 : ℤ) : ℚ) * (2 : ℚ) ^ ((-1 : ℤ) - 52) =
        3602879701896397 / 2 ^ 52 := by norm_num
    rw [hv] at h
    have e : fifthsPair.unexplainedFraction 0 =
        Double.div (Double.ofNat 4) (Double.ofNat 5) := rfl
    rw [e, h]
  have h1 : fifthsPair.unexplainedFraction 1 = Double.fin 0 := by
    have e : fifthsPair.unexplainedFraction 1 =
        Double.div (Double.ofNat 0) (Double.ofNat 1) := rfl
    rw [e, Double.div_ofNat_of_le 0 1 (by norm_num) (by norm_num) (by norm_num)]
    have h := roundToBinary64_zero
    norm_num
    exact h
  have hm : fifthsPair.maximumUnexplainedFraction =
      Double.fin (3602879701896397 / 2 ^ 52) := by
    unfold maximumUnexplainedFraction
    rw [h0, h1]
    unfold Double.max
    rw [if_neg]
    simp only [Double.lt, decide_eq_true_eq]
    norm_num
  refine ⟨hj, hm, ?_⟩
  rw [hm]
  show Double.ofRat (1 - 3602879701896397 / 2 ^ 52) = _
  have hb : IsBinary64 ((900719925474099 : ℚ) / 2 ^ 52) :=
    ⟨900719925474099, -52, by norm_num, by norm_num, by norm_num⟩
  have he : (1 : ℚ) - 3602879701896397 / 2 ^ 52 = 900719925474099 / 2 ^ 52 := by norm_num
  rw [he]
  exact Double.ofRat_of_isBinary64 _ hb (by norm_num [abs_of_pos])

/-- C21, counterexample: the pair with commonCount = 1, unexplainedCount = {4, 0},
totalCount = {5, 1} and no short reads passes check() and has commonCount > 0;
jaccard() is the double 3602879701896397 / 2^54 nearest to 1/5,
maximumUnexplainedFraction() is the double 3602879701896397 / 2^52 nearest to 4/5, and
1 - maximumUnexplainedFraction() is 900719925474099 / 2^52, which is less than
jaccard().  So jaccard() <= 1 - maximumUnexplainedFraction() fails, and the two are
not equal although only one unexplained count is non-zero. -/
theorem jaccard_le_rounding_counterexample :
    fifthsPair.InRange ∧ fifthsPair.check = Except.ok () ∧ 0 < fifthsPair.commonCount ∧
    fifthsPair.jaccard = Double.fin (3602879701896397 / 2 ^ 54) ∧
    fifthsPair.maximumUnexplainedFraction = Double.fin (3602879701896397 / 2 ^ 52) ∧
    Double.sub (Double.fin 1) fifthsPair.maximumUnexplainedFraction =
      Double.fin (900719925474099 / 2 ^ 52) ∧
    Double.le fifthsPair.jaccard
      (Double.sub (Double.fin 1) fifthsPair.maximumUnexplainedFraction) = false ∧
    Double.lt (Double.sub (Double.fin 1) fifthsPair.maximumUnexplainedFraction)
      fifthsPair.jaccard = true ∧
    (fifthsPair.unexplainedCount 0 = 0 ∨ fifthsPair.unexplainedCount 1 = 0) ∧
    fifthsPair.jaccard ≠ Double.sub (Double.fin 1) fifthsPair.maximumUnexplainedFraction := by
  obtain ⟨hj, hm, hd⟩ := fifthsPair_values
  refine ⟨?_, ?_, ?_, hj, hm, hd, ?_, ?_, ?_, ?_⟩
  · simp [InRange, fifthsPair, two64, Fin.forall_fin_two]
  · simp [check, checkedSum, SHASTA_ASSERT, fifthsPair, add64, two64, bind, Except.bind,
      pure, Except.pure]
  · simp [fifthsPair]
  · rw [hd, hj]
    simp only [Double.le, decide_eq_false_iff_not]
    norm_num
  · rw [hd, hj]
    simp only [Double.lt, decide_eq_true_eq]
    norm_num
  · right
    simp [fifthsPair]
  · rw [hd, hj]
    intro h
    injection h with h
    norm_num at h

/-- C21 (amended): for every SegmentPairInformation with commonCount > 0 and
commonCount + unexplainedCount[0] + unexplainedCount[1] at most 2^53 (so that the
64 bit sums do not overflow and the conversions to double are exact), jaccard(),
maximumUnexplainedFraction() and 1 - maximumUnexplainedFraction() are finite and
jaccard() <= (1 - maximumUnexplainedFraction()) + 3 * 2^-54, the three roundings
involved each contributing at most 2^-54; jaccard() = 1 if and only if
unexplainedCount = {0,0} if and only if maximumUnexplainedFraction() = 0; and when
unexplainedCount = {0,0}, jaccard() equals 1 - maximumUnexplainedFraction(). -/
theorem jaccard_le_one_sub_maximum_rounded (s : SegmentPairInformation)
    (hc : 0 < s.commonCount)
    (hno : s.commonCount + s.unexplainedCount 0 + s.unexplainedCount 1 ≤ 2 ^ 53) :
    (∃ j m d : ℚ, s.jaccard = Double.fin j ∧
      s.maximumUnexplainedFraction = Double.fin m ∧
      Double.sub (Double.fin 1) s.maximumUnexplainedFraction = Double.fin d ∧
      j ≤ d + 3 / 2 ^ 54) ∧
    (s.jaccard = Double.fin 1 ↔
      (s.unexplainedCount 0 = 0 ∧ s.unexplainedCount 1 = 0)) ∧
    ((s.unexplainedCount 0 = 0 ∧ s.unexplainedCount 1 = 0) ↔
      s.maximumUnexplainedFraction = Double.fin 0) ∧
    ((s.unexplainedCount 0 = 0 ∧ s.unexplainedCount 1 = 0) →
      s.jaccard = Double.sub (Double.fin 1) s.maximumUnexplainedFraction) := by
  have hj := jaccard_of_small s hc hno
  have hf0 := unexplainedFraction_of_small s 0 hc (by omega)
  have hf1 := unexplainedFraction_of_small s 1 hc (by omega)
  obtain ⟨a0, a1⟩ := ratio_unit (s.unexplainedCount 0) (s.commonCount + s.unexplainedCount 0)
    (by omega) (by omega)
  obtain ⟨b0, b1⟩ := ratio_unit (s.unexplainedCount 1) (s.commonCount + s.unexplainedCount 1)
    (by omega) (by omega)
  obtain ⟨ra0, ra1⟩ := roundToBinary64_unit _ a0 a1
  obtain ⟨rb0, rb1⟩ := roundToBinary64_unit _ b0 b1
  have hle0 := rounded_ratio_le s.commonCount (s.unexplainedCount 0 + s.unexplainedCount 1)
    (s.unexplainedCount 0) hc (by omega)
  have hle1 := rounded_ratio_le s.commonCount (s.unexplainedCount 0 + s.unexplainedCount 1)
    (s.unexplainedCount 1) hc (by omega)
  have hpos0 : 0 < s.unexplainedCount 0 →
      0 < roundToBinary64 ((s.unexplainedCount 0 : ℚ) /
        ((s.commonCount + s.unexplainedCount 0 : ℕ) : ℚ)) :=
    fun h => roundToBinary64_ratio_pos _ _ h (by omega) (by omega)
  have hpos1 : 0 < s.unexplainedCount 1 →
      0 < roundToBinary64 ((s.unexplainedCount 1 : ℚ) /
        ((s.commonCount + s.unexplainedCount 1 : ℕ) : ℚ)) :=
    fun h => roundToBinary64_ratio_pos _ _ h (by omega) (by omega)
  have hzero0 : s.unexplainedCount 0 = 0 →
      roundToBinary64 ((s.unexplainedCount 0 : ℚ) /
        ((s.commonCount + s.unexplainedCount 0 : ℕ) : ℚ)) = 0 := by
    intro h
    rw [h, Nat.cast_zero, zero_div]
    exact roundToBinary64_zero
  have hzero1 : s.unexplainedCount 1 = 0 →
      roundToBinary64 ((s.unexplainedCount 1 : ℚ) /
        ((s.commonCount + s.unexplainedCount 1 : ℕ) : ℚ)) = 0 := by
    intro h
    rw [h, Nat.cast_zero, zero_div]
    exact roundToBinary64_zero
  have hjone : s.jaccard = Double.fin 1 ↔
      (s.unexplainedCount 0 = 0 ∧ s.unexplainedCount 1 = 0) := by
    rw [hj]
    constructor
    · intro h
      injection h with h
      by_contra hne
      have hlt := roundToBinary64_ratio_lt_one s.commonCount
        (s.commonCount + (s.unexplainedCount 0 + s.unexplainedCount 1)) (by omega) (by omega)
      rw [h] at hlt
      exact lt_irrefl _ hlt
    · rintro ⟨h0, h1⟩
      rw [h0, h1, Nat.add_zero,
        div_self (by exact_mod_cast hc.ne.symm : (s.commonCount : ℚ) ≠ 0),
        roundToBinary64_eq_self 1 isBinary64_one]
  by_cases h : roundToBinary64 ((s.unexplainedCount 0 : ℚ) /
        ((s.commonCount + s.unexplainedCount 0 : ℕ) : ℚ)) <
      roundToBinary64 ((s.unexplainedCount 1 : ℚ) /
        ((s.commonCount + s.unexplainedCount 1 : ℕ) : ℚ))
  · have hmax : s.maximumUnexplainedFraction =
        Double.fin (roundToBinary64 ((s.unexplainedCount 1 : ℚ) /
          ((s.commonCount + s.unexplainedCount 1 : ℕ) : ℚ))) := by
      unfold maximumUnexplainedFraction
      rw [hf0, hf1]
      unfold Double.max
      rw [if_pos]
      simp only [Double.lt, decide_eq_true_eq]
      exact h
    have hsub := Double.one_sub_of_unit _ rb0 rb1
    refine ⟨⟨_, _, _, hj, hmax, ?_, hle1⟩, hjone, ?_, ?_⟩
    · rw [hmax, hsub]
    · rw [hmax]
      constructor
      · rintro ⟨-, h1⟩
        rw [hzero1 h1]
      · intro hm
        injection hm with hm
        rw [hm] at h
        exact absurd h (not_lt.mpr ra0)
    · rintro ⟨h0, h1⟩
      rw [hzero0 h0, hzero1 h1] at h
      exact absurd h (lt_irrefl _)
  · have hmax : s.maximumUnexplainedFraction =
        Double.fin (roundToBinary64 ((s.unexplainedCount 0 : ℚ) /
          ((s.commonCount + s.unexplainedCount 0 : ℕ) : ℚ))) := by
      unfold maximumUnexplainedFraction
      rw [hf0, hf1]
      unfold Double.max
      rw [if_neg]
      simp only [Double.lt, decide_eq_true_eq]
      exact h
    have hsub := Double.one_sub_of_unit _ ra0 ra1
    refine ⟨⟨_, _, _, hj, hmax, ?_, hle0⟩, hjone, ?_, ?_⟩
    · rw [hmax, hsub]
    · rw [hmax]
      constructor
      · rintro ⟨h0, -⟩
        rw [hzero0 h0]
      · intro hm
        injection hm with hm
        rw [hm] at h
        have h1z : s.unexplainedCount 1 = 0 := by
          by_contra hne
          exact h (hpos1 (Nat.pos_of_ne_zero hne))
        have h0z : s.unexplainedCount 0 = 0 := by
          by_contra hne
          have := hpos0 (Nat.pos_of_ne_zero hne)
          rw [hm] at this
          exact lt_irrefl _ this
        exact ⟨h0z, h1z⟩
    · rintro ⟨h0, h1⟩
      rw [hmax, hsub, hzero0 h0, (hjone.mpr ⟨h0, h1⟩), sub_zero,
        roundToBinary64_eq_self 1 isBinary64_one]

/-- C21, witness: the amended statement applied to the repeat detection scenario,
where both unexplained counts are 2. -/
theorem jaccard_le_one_sub_maximum_rounded_witness :
    (0 < scenario.commonCount ∧
      scenario.commonCount + scenario.unexplainedCount 0 + scenario.unexplainedCount 1 ≤
        2 ^ 53) ∧
    ∃ j m d : ℚ, scenario.jaccard = Double.fin j ∧
      scenario.maximumUnexplainedFraction = Double.fin m ∧
      Double.sub (Double.fin 1) scenario.maximumUnexplainedFraction = Double.fin d ∧
      j ≤ d + 3 / 2 ^ 54 :=
  ⟨⟨by simp [scenario], by simp [scenario]⟩,
    (jaccard_le_one_sub_maximum_rounded scenario (by simp [scenario])
      (by simp [scenario])).1⟩

end SegmentPairInformation

end shasta
